import Mathlib

/-!
Verification of the shortest-path algorithm suite and its benchmarking
harness.  A `Graph` carries the edge list exactly as
`graph.edges(data=True)` enumerates it: for a directed `nx.DiGraph`,
every arc; for an undirected `nx.Graph`, the one stored orientation of
each edge.  Adjacency (`graph.neighbors`, `graph[u][v]`) on an
undirected graph is symmetric, so algorithms that walk adjacency are
applied to the symmetric closure `symClosure` of the stored list, while
algorithms that sweep `graph.edges(data=True)` — Bellman-Ford's
relaxation rounds — are applied to the stored list itself; on directed
inputs the two views coincide.  Node identifiers are natural numbers;
the Python value `None` is modelled by `Option`, the float infinity by
`⊤ : WithTop ℤ`, a raised exception by an explicit error outcome, and a
loop that does not terminate by fuel exhaustion (`Option.none` at the
outermost level).
-/

/-- A weighted directed graph: a node list and an edge list of
`(source, target, weight)` triples, mirroring the networkx `DiGraph`
node/edge enumeration order. -/
structure Graph where
  nodes : List Nat
  edges : List (Nat × Nat × Int)
deriving DecidableEq, Repr

namespace Graph

/-- `graph[u][v].get('weight', 1)`: weight of the edge `(u, v)`,
defaulting to 1. -/
def weight (g : Graph) (u v : Nat) : Int :=
  match g.edges.find? (fun e => e.1 == u && e.2.1 == v) with
  | some e => e.2.2
  | none => 1

/-- `graph.neighbors(u)` / `graph.successors(u)`: targets of edges
leaving `u`, in edge-insertion order. -/
def neighbors (g : Graph) (u : Nat) : List Nat :=
  (g.edges.filter (fun e => e.1 == u)).map (fun e => e.2.1)

/-- `v in graph[u]`: there is an edge from `u` to `v`. -/
def isEdge (g : Graph) (u v : Nat) : Bool :=
  (g.edges.find? (fun e => e.1 == u && e.2.1 == v)).isSome

/-- Well-formedness guaranteed by networkx digraphs: node list without
duplicates, at most one edge per ordered pair, and edge endpoints
registered as nodes. -/
def Wf (g : Graph) : Prop :=
  g.nodes.Nodup ∧
  (g.edges.map (fun e => (e.1, e.2.1))).Nodup ∧
  ∀ e ∈ g.edges, e.1 ∈ g.nodes ∧ e.2.1 ∈ g.nodes

instance (g : Graph) : Decidable g.Wf := by
  unfold Wf; infer_instance

end Graph

/-- A walk in `g` from `s` to `e`: a nonempty node sequence starting at
`s`, ending at `e`, in which consecutive nodes are joined by edges. -/
def IsWalk (g : Graph) (s e : Nat) (p : List Nat) : Prop :=
  p ≠ [] ∧ p.head? = some s ∧ p.getLast? = some e ∧
    List.Chain' (fun u v => g.isEdge u v = true) p

instance (g : Graph) (s e : Nat) (p : List Nat) : Decidable (IsWalk g s e p) := by
  unfold IsWalk; infer_instance

/-- The literal sum of the traversed edge weights along a node
sequence. -/
def walkCost (g : Graph) : List Nat → Int
  | [] => 0
  | [_] => 0
  | u :: v :: rest => g.weight u v + walkCost g (v :: rest)

/-- All edge weights of `g` are non-negative. -/
def Nonneg (g : Graph) : Prop := ∀ e ∈ g.edges, 0 ≤ e.2.2

instance (g : Graph) : Decidable (Nonneg g) := by
  unfold Nonneg; infer_instance

/-- The outcome of one Python call: either a normal return of
`(path, cost)` — `path` absent encodes Python `None` — or a raised
exception carrying its message. -/
inductive PyOutcome where
  | res : Option (List Nat) → WithTop Int → PyOutcome
  | err : String → PyOutcome
deriving DecidableEq, Repr

section WalkLemmas

theorem isEdge_mem_edges {g : Graph} {u v : Nat} (h : g.isEdge u v = true) :
    (u, v, g.weight u v) ∈ g.edges := by
  unfold Graph.isEdge at h
  unfold Graph.weight
  cases hf : g.edges.find? (fun e => e.1 == u && e.2.1 == v) with
  | none => rw [hf] at h; simp at h
  | some e =>
    show (u, v, e.2.2) ∈ g.edges
    have hm := List.mem_of_find?_eq_some hf
    have hp := List.find?_some hf
    simp only [Bool.and_eq_true, beq_iff_eq] at hp
    obtain ⟨h1, h2⟩ := hp
    cases e with
    | mk a bc =>
      cases bc with
      | mk b c =>
        simp only at h1 h2
        subst h1; subst h2
        exact hm

theorem walkCost_append (g : Graph) (xs ys : List Nat) (a : Nat) :
    walkCost g (xs ++ a :: ys) = walkCost g (xs ++ [a]) + walkCost g (a :: ys) := by
  induction xs with
  | nil =>
    simp [walkCost]
  | cons x xs ih =>
    cases xs with
    | nil =>
      simp only [List.cons_append, List.nil_append, walkCost]
      ring
    | cons y ys2 =>
      simp only [List.cons_append] at ih ⊢
      simp only [walkCost]
      rw [ih]
      ring

theorem walkCost_nonneg {g : Graph} (hg : Nonneg g) :
    ∀ {p : List Nat}, List.Chain' (fun u v => g.isEdge u v = true) p →
      0 ≤ walkCost g p := by
  intro p
  induction p with
  | nil => intro _; simp [walkCost]
  | cons u rest ih =>
    intro hc
    cases rest with
    | nil => simp [walkCost]
    | cons v rest2 =>
      rw [List.chain'_cons] at hc
      have h1 : (0 : Int) ≤ g.weight u v := by
        have := isEdge_mem_edges hc.1
        exact hg _ this
      have h2 := ih hc.2
      simp only [walkCost]
      omega

end WalkLemmas

/-! ## Benchmark harness (src/src/utils/benchmark.py)

Timing and memory sampling are environment effects with no algorithmic
content; the metrics record keeps the algorithmically meaningful fields
(name, path length, cost, success flag, error message). -/

/-- One metrics record as assembled by `measure_performance` /
`run_benchmark`. -/
structure Metrics where
  algorithm : String
  path_length : Nat
  path_cost : WithTop Int
  success : Bool
  error : Option String
deriving DecidableEq, Repr

/-- An algorithm as passed to the harness: called on
`(graph, start, end)`, it either returns a `(path, cost)` pair or
raises an error message. -/
def AlgFun := Graph → Nat → Nat → Except String (Option (List Nat) × WithTop Int)

/-- The metrics record built on a normal return
(`benchmark.py` lines 70-73): `path_length` is `len(result[0])` when the
path is present and nonempty, else 0; `path_cost` is `result[1]`;
`success` is `result is not None` where `result` is the returned
`(path, cost)` tuple — a tuple is never `None`, so this is `true`. -/
def mkMetrics (name : String) (r : Option (List Nat) × WithTop Int) : Metrics :=
  { algorithm := name
    path_length := (r.1.getD []).length
    path_cost := r.2
    success := true
    error := none }

/-- The metrics record appended when the algorithm raises
(`benchmark.py` lines 74-84). -/
def failMetrics (name msg : String) : Metrics :=
  { algorithm := name
    path_length := 0
    path_cost := ⊤
    success := false
    error := some msg }

/-- The record `run_benchmark` appends for one named algorithm. -/
def recordFor (g : Graph) (s e : Nat) (nf : String × AlgFun) : Metrics :=
  match nf.2 g s e with
  | .ok r => mkMetrics nf.1 r
  | .error msg => failMetrics nf.1 msg

/-- `AlgorithmBenchmark.run_benchmark`: `results` is the harness
instance's accumulated `self.results` list at call time; each named
algorithm is run in turn and its record appended; the returned batch is
`pd.DataFrame(self.results)`, i.e. the whole accumulated list. -/
def run_benchmark (algs : List (String × AlgFun)) (g : Graph) (s e : Nat)
    (results : List Metrics) : List Metrics :=
  algs.foldl
    (fun acc nf =>
      acc ++ [match nf.2 g s e with
              | .ok r => mkMetrics nf.1 r
              | .error msg => failMetrics nf.1 msg])
    results

theorem run_benchmark_eq (algs : List (String × AlgFun)) (g : Graph) (s e : Nat)
    (results : List Metrics) :
    run_benchmark algs g s e results = results ++ algs.map (recordFor g s e) := by
  induction algs generalizing results with
  | nil => simp [run_benchmark]
  | cons a as ih =>
    simp only [run_benchmark, List.foldl_cons, List.map_cons] at ih ⊢
    rw [ih]
    simp [recordFor]

/-! ## Shared relaxation framework (Bellman-Ford, SPFA, DAG) -/

/-- A distance labelling: `float('inf')` is `⊤`. -/
abbrev DMap := Nat → WithTop Int

/-- A predecessor map: `None` is `Option.none`. -/
abbrev PMap := Nat → Option Nat

/-- Dictionary update `f[k] = v` on a total-function model. -/
def updF {α : Type} (f : Nat → α) (k : Nat) (v : α) : Nat → α :=
  fun x => if x = k then v else f x

/-- `distance = {node: inf for node in nodes}; distance[start] = 0`. -/
def dInit (s : Nat) : DMap := fun v => if v = s then (0 : WithTop Int) else ⊤

/-- Distance/predecessor pair threaded through relaxations. -/
structure RState where
  d : DMap
  pred : PMap

/-- Initial relaxation state. -/
def rInit (s : Nat) : RState := ⟨dInit s, fun _ => none⟩

/-- `if distance[u] + weight < distance[v]: distance[v] = ...; predecessor[v] = u`. -/
def relaxEdge (st : RState) (e : Nat × Nat × Int) : RState :=
  if st.d e.1 + (e.2.2 : WithTop Int) < st.d e.2.1 then
    { d := updF st.d e.2.1 (st.d e.1 + (e.2.2 : WithTop Int))
      pred := updF st.pred e.2.1 (some e.1) }
  else st

/-- One full pass over `graph.edges(data=True)`. -/
def relaxPass (g : Graph) (st : RState) : RState := g.edges.foldl relaxEdge st

/-- The state after the `(len(graph.nodes) - 1)` unconditional
relaxation rounds of `bellman_ford.shortest_path`. -/
def bfState (g : Graph) (s : Nat) : RState :=
  (List.range (g.nodes.length - 1)).foldl (fun st _ => relaxPass g st) (rInit s)

/-- The extra-pass check: some edge still relaxes. -/
def bfRelaxable (g : Graph) (st : RState) : Bool :=
  g.edges.any (fun e => decide (st.d e.1 + (e.2.2 : WithTop Int) < st.d e.2.1))

/-- Predecessor-chain reconstruction
(`while current is not None: path.insert(0, current); current = predecessor[current]`),
with fuel for the (possibly non-terminating) while loop. -/
def chainFrom (pred : PMap) : Nat → Nat → Option (List Nat)
  | 0, _ => none
  | fuel + 1, cur =>
    match pred cur with
    | none => some [cur]
    | some p => (chainFrom pred fuel p).map (fun l => l ++ [cur])

namespace BellmanFord

/-- `src/src/algorithms/bellman_ford.py shortest_path`.  The relaxation
rounds sweep `graph.edges(data=True)`, i.e. `g.edges` as stored: on an
undirected input this is one orientation per edge (not the symmetric
adjacency view), so the reverse orientation is never relaxed there. -/
def shortest_path (g : Graph) (s e : Nat) (fuel : Nat) : Option PyOutcome :=
  let st := bfState g s
  if bfRelaxable g st then some (.err "Graph contains a negative-weight cycle")
  else
    match chainFrom st.pred fuel e with
    | none => none
    | some path =>
      if st.d e = ⊤ then some (.res none ⊤) else some (.res (some path) (st.d e))

end BellmanFord

/-- No edge of `g` can relax the labelling `d` any further. -/
def Stable (g : Graph) (d : DMap) : Prop :=
  ∀ e ∈ g.edges, d e.2.1 ≤ d e.1 + (e.2.2 : WithTop Int)

/-- Every finite label is realised by an actual walk from `s`. -/
def Achievable (g : Graph) (s : Nat) (d : DMap) : Prop :=
  ∀ v : Nat, d v ≠ ⊤ → ∃ p, IsWalk g s v p ∧ (walkCost g p : WithTop Int) = d v

/-- Invariant maintained by every relaxation-based algorithm. -/
structure RelaxInv (g : Graph) (s : Nat) (st : RState) : Prop where
  achiev : Achievable g s st.d
  mono : ∀ v, st.d v ≤ dInit s v
  predEdge : ∀ v u, st.pred v = some u → g.isEdge u v = true
  predGe : ∀ v u, st.pred v = some u →
    st.d u + (g.weight u v : WithTop Int) ≤ st.d v
  predStrict : ∀ v u, st.pred v = some u → st.d v < dInit s v
  predNone : ∀ v, st.pred v = none → st.d v = dInit s v

theorem weight_eq_of_mem {g : Graph} (hwf : g.Wf) {u v : Nat} {w : Int}
    (h : (u, v, w) ∈ g.edges) : g.weight u v = w := by
  unfold Graph.weight
  cases hf : g.edges.find? (fun e => e.1 == u && e.2.1 == v) with
  | none =>
    exfalso
    have := List.find?_eq_none.mp hf (u, v, w) h
    simp at this
  | some e =>
    have hm := List.mem_of_find?_eq_some hf
    have hp := List.find?_some hf
    simp only [Bool.and_eq_true, beq_iff_eq] at hp
    have hinj := List.inj_on_of_nodup_map hwf.2.1
    have heq : (u, v, w) = e := hinj h hm (by simp [hp.1, hp.2])
    rw [← heq]

theorem isEdge_of_mem {g : Graph} {u v : Nat} {w : Int}
    (h : (u, v, w) ∈ g.edges) : g.isEdge u v = true := by
  unfold Graph.isEdge
  cases hf : g.edges.find? (fun e => e.1 == u && e.2.1 == v) with
  | some e => rfl
  | none =>
    exfalso
    have := List.find?_eq_none.mp hf (u, v, w) h
    simp at this

theorem IsWalk.single (g : Graph) (s : Nat) : IsWalk g s s [s] := by
  refine ⟨by simp, by simp, by simp, by simp⟩

theorem IsWalk.snoc {g : Graph} {s u v : Nat} {p : List Nat}
    (h : IsWalk g s u p) (he : g.isEdge u v = true) : IsWalk g s v (p ++ [v]) := by
  obtain ⟨hne, hhd, hlast, hch⟩ := h
  have hdecomp : p.dropLast ++ [u] = p := by
    have h1 := List.dropLast_append_getLast hne
    have h2 : p.getLast hne = u := by
      have := List.getLast?_eq_getLast p hne
      rw [this] at hlast
      exact Option.some_injective _ hlast.symm |>.symm
    rw [h2] at h1
    exact h1
  refine ⟨by simp, ?_, ?_, ?_⟩
  · rw [List.head?_append_of_ne_nil _ hne]
    exact hhd
  · simp
  · rw [← hdecomp, List.append_assoc]
    rw [← hdecomp] at hch
    simp only [List.singleton_append]
    rw [List.chain'_split] at hch ⊢
    refine ⟨hch.1, ?_⟩
    simp [he]

theorem walkCost_snoc {g : Graph} {u v : Nat} {p : List Nat}
    (hne : p ≠ []) (h : p.getLast? = some u) :
    walkCost g (p ++ [v]) = walkCost g p + g.weight u v := by
  have hdecomp : p.dropLast ++ [u] = p := by
    have h1 := List.dropLast_append_getLast hne
    have h2 : p.getLast hne = u := by
      have := List.getLast?_eq_getLast p hne
      rw [this] at h
      exact Option.some_injective _ h.symm |>.symm
    rw [h2] at h1
    exact h1
  rw [← hdecomp, List.append_assoc]
  have := walkCost_append g p.dropLast [v] u
  simp only [List.cons_append, List.nil_append] at this ⊢
  rw [this]
  have h2 : walkCost g [u, v] = g.weight u v := by simp [walkCost]
  rw [h2]

/-- Generic `foldl` invariant-preservation principle. -/
theorem foldl_inv {α β : Type} {P : β → Prop} (f : β → α → β) (l : List α) (b : β)
    (hb : P b) (h : ∀ b a, a ∈ l → P b → P (f b a)) : P (l.foldl f b) := by
  induction l generalizing b with
  | nil => exact hb
  | cons x xs ih =>
    simp only [List.foldl_cons]
    exact ih (f b x) (h b x (by simp) hb) (fun b a ha hp => h b a (by simp [ha]) hp)

theorem relaxEdge_d_le (st : RState) (e : Nat × Nat × Int) (v : Nat) :
    (relaxEdge st e).d v ≤ st.d v := by
  unfold relaxEdge
  split
  · next h =>
    simp only [updF]
    split
    · next hv => subst hv; exact le_of_lt h
    · exact le_refl _
  · exact le_refl _

theorem relaxInv_init (g : Graph) (s : Nat) : RelaxInv g s (rInit s) := by
  constructor
  · intro v hv
    simp only [rInit, dInit] at hv ⊢
    by_cases h : v = s
    · subst h
      exact ⟨[v], IsWalk.single g v, by simp [walkCost]⟩
    · simp [h] at hv
  · intro v; exact le_refl _
  · intro v u h; simp [rInit] at h
  · intro v u h; simp [rInit] at h
  · intro v u h; simp [rInit] at h
  · intro v _; rfl

theorem relaxEdge_inv {g : Graph} {s : Nat} (hwf : g.Wf) {st : RState}
    (hinv : RelaxInv g s st) {e : Nat × Nat × Int} (he : e ∈ g.edges) :
    RelaxInv g s (relaxEdge st e) := by
  obtain ⟨u, v, w⟩ := e
  unfold relaxEdge
  split
  · next hlt =>
    simp only at hlt
    have hedge : g.isEdge u v = true := isEdge_of_mem he
    have hw : g.weight u v = w := weight_eq_of_mem hwf he
    have hfin : st.d u + (w : WithTop Int) ≠ ⊤ := hlt.ne_top
    have hdufin : st.d u ≠ ⊤ := by
      intro hc
      rw [hc] at hfin
      simp at hfin
    constructor
    · intro x hx
      simp only [updF] at hx ⊢
      by_cases hxv : x = v
      · subst hxv
        simp only [if_pos rfl] at hx ⊢
        obtain ⟨p, hp, hpc⟩ := hinv.achiev u hdufin
        refine ⟨p ++ [x], hp.snoc hedge, ?_⟩
        rw [walkCost_snoc hp.1 hp.2.2.1]
        push_cast
        rw [hpc, hw]
      · simp only [if_neg hxv] at hx ⊢
        exact hinv.achiev x hx
    · intro x
      simp only [updF]
      by_cases hxv : x = v
      · subst hxv
        simp only [if_pos rfl]
        exact le_trans (le_of_lt hlt) (hinv.mono x)
      · simp only [if_neg hxv]
        exact hinv.mono x
    · intro x y h
      simp only [updF] at h
      by_cases hxv : x = v
      · subst hxv
        simp only [if_pos rfl] at h
        injection h with h2
        subst h2
        exact hedge
      · simp only [if_neg hxv] at h
        exact hinv.predEdge x y h
    · intro x y h
      simp only [updF] at h ⊢
      by_cases hxv : x = v
      · subst hxv
        simp only [if_pos rfl] at h ⊢
        injection h with h2
        subst h2
        by_cases hux : u = x
        · subst hux
          simp only [if_pos rfl]
          rw [hw]
          lift st.d u to Int using hdufin with a ha
          rw [← WithTop.coe_add, WithTop.coe_lt_coe] at hlt
          simp only [if_true]
          have hle : a + w + w ≤ a + w := by omega
          exact_mod_cast hle
        · simp only [if_neg hux, if_true]
          rw [hw]
      · simp only [if_neg hxv] at h
        have hold := hinv.predGe x y h
        by_cases hyv : y = v
        · subst hyv
          simp only [if_pos rfl, if_neg hxv]
          calc st.d u + (w : WithTop Int) + (g.weight y x : WithTop Int)
              ≤ st.d y + (g.weight y x : WithTop Int) := by
                exact add_le_add_right (le_of_lt hlt) _
            _ ≤ st.d x := hold
        · simp only [if_neg hyv, if_neg hxv]
          exact hold
    · intro x y h
      simp only [updF] at h ⊢
      by_cases hxv : x = v
      · subst hxv
        simp only [if_pos rfl]
        exact lt_of_lt_of_le hlt (hinv.mono x)
      · simp only [if_neg hxv] at h ⊢
        exact hinv.predStrict x y h
    · intro x h
      simp only [updF] at h ⊢
      by_cases hxv : x = v
      · subst hxv
        simp only [if_pos rfl] at h
        cases h
      · simp only [if_neg hxv] at h ⊢
        exact hinv.predNone x h
  · exact hinv


theorem relaxPass_inv {g : Graph} {s : Nat} (hwf : g.Wf) {st : RState}
    (hinv : RelaxInv g s st) : RelaxInv g s (relaxPass g st) :=
  foldl_inv relaxEdge g.edges st hinv (fun b a ha hp => relaxEdge_inv hwf hp ha)

theorem bfState_inv {g : Graph} (hwf : g.Wf) (s : Nat) : RelaxInv g s (bfState g s) :=
  foldl_inv _ _ _ (relaxInv_init g s) (fun b _ _ hp => relaxPass_inv hwf hp)

theorem IsWalk.head_eq {g : Graph} {x y a : Nat} {rest : List Nat}
    (h : IsWalk g x y (a :: rest)) : a = x := by
  have := h.2.1
  simp at this
  exact this

theorem IsWalk.cons_step {g : Graph} {x y u v : Nat} {rest : List Nat}
    (h : IsWalk g x y (u :: v :: rest)) :
    g.isEdge u v = true ∧ IsWalk g v y (v :: rest) := by
  obtain ⟨hne, hhd, hlast, hch⟩ := h
  rw [List.chain'_cons] at hch
  refine ⟨hch.1, by simp, by simp, ?_, hch.2⟩
  rw [List.getLast?_cons_cons] at hlast
  exact hlast

theorem stable_walk_le {g : Graph} {d : DMap} (hst : Stable g d) :
    ∀ {p : List Nat} {x y : Nat}, IsWalk g x y p →
      d y ≤ d x + (walkCost g p : WithTop Int) := by
  intro p
  induction p with
  | nil => intro x y h; exact absurd rfl h.1
  | cons u rest ih =>
    intro x y h
    have hux : u = x := h.head_eq
    subst hux
    cases rest with
    | nil =>
      have : u = y := by
        have := h.2.2.1
        simp at this
        exact this
      subst this
      simp [walkCost]
    | cons v rest2 =>
      obtain ⟨hedge, hwalk⟩ := h.cons_step
      have h1 : d v ≤ d u + (g.weight u v : WithTop Int) := by
        have hm := isEdge_mem_edges hedge
        exact hst _ hm
      have h2 := ih hwalk
      calc d y ≤ d v + (walkCost g (v :: rest2) : WithTop Int) := h2
        _ ≤ (d u + (g.weight u v : WithTop Int)) + (walkCost g (v :: rest2) : WithTop Int) :=
            add_le_add_right h1 _
        _ = d u + (walkCost g (u :: v :: rest2) : WithTop Int) := by
            have hcw : walkCost g (u :: v :: rest2) = g.weight u v + walkCost g (v :: rest2) := by
              simp [walkCost]
            rw [hcw, WithTop.coe_add, add_assoc]

theorem stable_d_start {g : Graph} {s : Nat} {st : RState}
    (hinv : RelaxInv g s st) (hst : Stable g st.d) :
    st.d s = 0 ∧ st.pred s = none := by
  have hmono : st.d s ≤ 0 := by
    have := hinv.mono s
    simpa [dInit] using this
  have hfin : st.d s ≠ ⊤ := by
    intro hc
    rw [hc] at hmono
    exact absurd hmono (by simp)
  obtain ⟨p, hp, hpc⟩ := hinv.achiev s hfin
  have hwle := stable_walk_le hst hp
  rw [hpc] at hwle
  have hds : st.d s = 0 := by
    lift st.d s to Int using hfin with a ha
    have h1 : a ≤ 0 := by exact_mod_cast hmono
    have h2 : (0 : Int) ≤ a := by
      rw [← WithTop.coe_add, WithTop.coe_le_coe] at hwle
      omega
    have h3 : a = 0 := le_antisymm h1 h2
    exact_mod_cast h3
  refine ⟨hds, ?_⟩
  cases hps : st.pred s with
  | none => rfl
  | some u =>
    exfalso
    have := hinv.predStrict s u hps
    rw [hds] at this
    simp [dInit] at this

theorem chainFrom_spec {g : Graph} {s : Nat} {st : RState} (hwf : g.Wf)
    (hinv : RelaxInv g s st) (hst : Stable g st.d) :
    ∀ (fuel : Nat) (v : Nat) (path : List Nat),
      chainFrom st.pred fuel v = some path → st.d v ≠ ⊤ →
      IsWalk g s v path ∧ (walkCost g path : WithTop Int) = st.d v := by
  intro fuel
  induction fuel with
  | zero => intro v path h; simp [chainFrom] at h
  | succ n ih =>
    intro v path h hfin
    unfold chainFrom at h
    cases hp : st.pred v with
    | none =>
      rw [hp] at h
      dsimp only at h
      have hpath : path = [v] := by
        simpa using h.symm
      subst hpath
      have hd := hinv.predNone v hp
      have hvs : v = s := by
        by_contra hne
        rw [hd] at hfin
        simp [dInit, hne] at hfin
      subst hvs
      refine ⟨IsWalk.single g v, ?_⟩
      rw [hd]
      simp [walkCost, dInit]
    | some u =>
      rw [hp] at h
      dsimp only at h
      cases hc : chainFrom st.pred n u with
      | none => rw [hc] at h; simp at h
      | some l =>
        rw [hc] at h
        have hpath : path = l ++ [v] := by simpa using h.symm
        subst hpath
        have hedge := hinv.predEdge v u hp
        have hge := hinv.predGe v u hp
        have hle : st.d v ≤ st.d u + (g.weight u v : WithTop Int) :=
          hst _ (isEdge_mem_edges hedge)
        have htight : st.d v = st.d u + (g.weight u v : WithTop Int) :=
          le_antisymm hle hge
        have hufin : st.d u ≠ ⊤ := by
          intro hc2
          rw [hc2] at htight
          simp [htight] at hfin
        obtain ⟨hwalk, hcost⟩ := ih u l hc hufin
        refine ⟨hwalk.snoc hedge, ?_⟩
        rw [walkCost_snoc hwalk.1 hwalk.2.2.1]
        push_cast
        rw [hcost, htight]

/-- The consistency predicate of the path-result data model: either a
valid walk from `s` to `e` whose reported cost is the literal
(finite) edge-weight sum, or an absent path with infinite cost. -/
def ValidOut (g : Graph) (s e : Nat) : PyOutcome → Prop
  | .res none c => c = ⊤
  | .res (some p) c => IsWalk g s e p ∧ c = (walkCost g p : WithTop Int)
  | .err _ => True

instance (g : Graph) (s e : Nat) (out : PyOutcome) : Decidable (ValidOut g s e out) := by
  cases out with
  | res p c =>
    cases p with
    | none => dsimp [ValidOut]; infer_instance
    | some l => dsimp [ValidOut]; infer_instance
  | err m => dsimp [ValidOut]; infer_instance

theorem stable_of_not_relaxable {g : Graph} {st : RState}
    (h : bfRelaxable g st = false) : Stable g st.d := by
  unfold bfRelaxable at h
  rw [List.any_eq_false] at h
  intro e he
  have := h e he
  simp only [decide_eq_true_eq] at this
  exact not_lt.mp this

theorem foldl_range_iterate {β : Type} (f : β → β) :
    ∀ (n : Nat) (b : β), (List.range n).foldl (fun st _ => f st) b = f^[n] b := by
  intro n
  induction n with
  | zero => intro b; simp
  | succ k ih =>
    intro b
    rw [List.range_succ, List.foldl_append, ih, List.foldl_cons, List.foldl_nil,
      Function.iterate_succ_apply']

theorem bfState_eq_iterate (g : Graph) (s : Nat) :
    bfState g s = (relaxPass g)^[g.nodes.length - 1] (rInit s) :=
  foldl_range_iterate (relaxPass g) (g.nodes.length - 1) (rInit s)

theorem bf_err_iff (g : Graph) (s e fuel : Nat) :
    (∃ msg, BellmanFord.shortest_path g s e fuel = some (.err msg)) ↔
      bfRelaxable g (bfState g s) = true := by
  unfold BellmanFord.shortest_path
  cases hb : bfRelaxable g (bfState g s) with
  | true => simp [hb]
  | false =>
    simp only [hb, Bool.false_eq_true, if_false]
    constructor
    · rintro ⟨msg, hmsg⟩
      exfalso
      cases hc : chainFrom (bfState g s).pred fuel e with
      | none => rw [hc] at hmsg; cases hmsg
      | some path =>
        rw [hc] at hmsg
        dsimp only at hmsg
        by_cases hd : (bfState g s).d e = ⊤
        · rw [if_pos hd] at hmsg; cases hmsg
        · rw [if_neg hd] at hmsg; cases hmsg
    · intro h; cases h

theorem bf_sound {g : Graph} {s e fuel : Nat} {out : PyOutcome} (hwf : g.Wf)
    (h : BellmanFord.shortest_path g s e fuel = some out) : ValidOut g s e out := by
  unfold BellmanFord.shortest_path at h
  by_cases hb : bfRelaxable g (bfState g s) = true
  · rw [if_pos hb] at h
    injection h with h2
    rw [← h2]
    trivial
  · rw [if_neg hb] at h
    have hst : Stable g (bfState g s).d :=
      stable_of_not_relaxable (Bool.eq_false_iff.mpr hb)
    cases hc : chainFrom (bfState g s).pred fuel e with
    | none => rw [hc] at h; cases h
    | some path =>
      rw [hc] at h
      dsimp only at h
      by_cases hd : (bfState g s).d e = ⊤
      · rw [if_pos hd] at h
        injection h with h2
        rw [← h2]
        rfl
      · rw [if_neg hd] at h
        injection h with h2
        rw [← h2]
        have hinv := bfState_inv hwf s
        obtain ⟨hwalk, hcost⟩ := chainFrom_spec hwf hinv hst fuel e path hc hd
        exact ⟨hwalk, hcost.symm⟩

/-! ## SPFA (src/src/algorithms/spfa.py) -/

/-- SPFA working state: FIFO work queue, `in_queue` flags, distance and
predecessor maps. -/
structure SpfaState where
  queue : List Nat
  inq : Nat → Bool
  d : DMap
  pred : PMap

theorem mem_neighbors {g : Graph} {u v : Nat} :
    v ∈ g.neighbors u ↔ g.isEdge u v = true := by
  constructor
  · intro h
    unfold Graph.neighbors at h
    rw [List.mem_map] at h
    obtain ⟨e, he, hev⟩ := h
    rw [List.mem_filter] at he
    obtain ⟨hmem, hkey⟩ := he
    simp only [beq_iff_eq] at hkey
    have : e = (u, v, e.2.2) := by
      cases e with
      | mk a bc =>
        cases bc with
        | mk b c =>
          simp only at hkey hev ⊢
          rw [hkey, hev]
    rw [this] at hmem
    exact isEdge_of_mem hmem
  · intro h
    unfold Graph.isEdge at h
    cases hf : g.edges.find? (fun e => e.1 == u && e.2.1 == v) with
    | none => rw [hf] at h; simp at h
    | some e =>
      have hmem := List.mem_of_find?_eq_some hf
      have hkey := List.find?_some hf
      simp only [Bool.and_eq_true, beq_iff_eq] at hkey
      unfold Graph.neighbors
      rw [List.mem_map]
      refine ⟨e, ?_, hkey.2⟩
      rw [List.mem_filter]
      exact ⟨hmem, by simp [hkey.1]⟩

theorem mem_neighbors_of_mem_edges {g : Graph} {u v : Nat} {w : Int}
    (h : (u, v, w) ∈ g.edges) : v ∈ g.neighbors u :=
  mem_neighbors.mpr (isEdge_of_mem h)

/-- The inner `for v in graph.neighbors(u)` loop of SPFA: relax each
remaining neighbor of `u`, enqueueing improved targets not already in
the queue. -/
def spfaRelax (g : Graph) (u : Nat) : List Nat → SpfaState → SpfaState
  | [], st => st
  | v :: rest, st =>
    if st.d u + (g.weight u v : WithTop Int) < st.d v then
      if st.inq v then
        spfaRelax g u rest
          { st with d := updF st.d v (st.d u + (g.weight u v : WithTop Int))
                    pred := updF st.pred v (some u) }
      else
        spfaRelax g u rest
          { queue := st.queue ++ [v]
            inq := updF st.inq v true
            d := updF st.d v (st.d u + (g.weight u v : WithTop Int))
            pred := updF st.pred v (some u) }
    else spfaRelax g u rest st

/-- The outer `while queue:` loop, with fuel. -/
def spfaLoop (g : Graph) : Nat → SpfaState → Option SpfaState
  | 0, _ => none
  | fuel + 1, st =>
    match st.queue with
    | [] => some st
    | u :: qs =>
      spfaLoop g fuel
        (spfaRelax g u (g.neighbors u)
          { queue := qs, inq := updF st.inq u false, d := st.d, pred := st.pred })

/-- Initial SPFA state: `distance[start] = 0`, `queue = deque([start])`,
`in_queue[start] = True`. -/
def spfaInit (s : Nat) : SpfaState :=
  { queue := [s], inq := updF (fun _ => false) s true, d := dInit s, pred := fun _ => none }

namespace Spfa

/-- `src/src/algorithms/spfa.py shortest_path`; `fuel` bounds the main
loop, `cfuel` the reconstruction loop. -/
def shortest_path (g : Graph) (s e : Nat) (fuel cfuel : Nat) : Option PyOutcome :=
  match spfaLoop g fuel (spfaInit s) with
  | none => none
  | some st =>
    match chainFrom st.pred cfuel e with
    | none => none
    | some path =>
      some (.res (if path.head? = some s then some path else none) (st.d e))

end Spfa

/-- The bookkeeping invariant of the SPFA work queue. -/
structure QInv (g : Graph) (s : Nat) (st : SpfaState) : Prop where
  rinv : RelaxInv g s ⟨st.d, st.pred⟩
  inqIff : ∀ x, st.inq x = true ↔ x ∈ st.queue
  nodup : st.queue.Nodup

/-- Every edge is either already relaxed, or its source is queued for
(re)processing; during the processing of `u`, edges out of `u` whose
target is still in `rest` are also allowed to be unrelaxed. -/
def DirtyOn (g : Graph) (u : Nat) (rest : List Nat) (st : SpfaState) : Prop :=
  ∀ e ∈ g.edges,
    st.d e.2.1 ≤ st.d e.1 + (e.2.2 : WithTop Int) ∨ e.1 ∈ st.queue ∨
      (e.1 = u ∧ e.2.1 ∈ rest)

theorem spfaRelax_spec {g : Graph} {s u : Nat} (hwf : g.Wf) :
    ∀ (rest : List Nat) (st : SpfaState),
      (∀ v ∈ rest, v ∈ g.neighbors u) →
      QInv g s st →
      DirtyOn g u rest st →
      QInv g s (spfaRelax g u rest st) ∧ DirtyOn g u [] (spfaRelax g u rest st) := by
  intro rest
  induction rest with
  | nil =>
    intro st _ hq hdirty
    exact ⟨hq, hdirty⟩
  | cons v rest2 ih =>
    intro st hsub hq hdirty
    have hvnb : v ∈ g.neighbors u := hsub v (by simp)
    have hvedge : g.isEdge u v = true := mem_neighbors.mp hvnb
    have hmemE : (u, v, g.weight u v) ∈ g.edges := isEdge_mem_edges hvedge
    by_cases hrel : st.d u + (g.weight u v : WithTop Int) < st.d v
    · have hre : relaxEdge ⟨st.d, st.pred⟩ (u, v, g.weight u v) =
          ⟨updF st.d v (st.d u + (g.weight u v : WithTop Int)), updF st.pred v (some u)⟩ := by
        simp only [relaxEdge]
        rw [if_pos]
        exact hrel
      have hri2 := relaxEdge_inv hwf hq.rinv hmemE
      rw [hre] at hri2
      -- facts about the updated distance map
      have hd2le : ∀ x, updF st.d v (st.d u + (g.weight u v : WithTop Int)) x ≤ st.d x := by
        intro x
        simp only [updF]
        by_cases hx : x = v
        · subst hx
          simp only [if_pos rfl]
          exact le_of_lt hrel
        · simp only [if_neg hx]
          exact le_refl _
      have hd2ne : ∀ x, x ≠ v → updF st.d v (st.d u + (g.weight u v : WithTop Int)) x = st.d x := by
        intro x hx
        simp [updF, hx]
      by_cases hinq : st.inq v = true
      · rw [spfaRelax, if_pos hrel, if_pos hinq]
        apply ih
        · intro x hx; exact hsub x (by simp [hx])
        · exact ⟨hri2, hq.inqIff, hq.nodup⟩
        · intro e he
          obtain ⟨a, b, w2⟩ := e
          simp only at *
          by_cases hav : a = v
          · subst hav
            exact Or.inr (Or.inl ((hq.inqIff a).mp hinq))
          · rcases hdirty (a, b, w2) he with h1 | h2 | h3
            · refine Or.inl ?_
              rw [hd2ne a hav]
              calc updF st.d v (st.d u + (g.weight u v : WithTop Int)) b ≤ st.d b := hd2le b
                _ ≤ st.d a + (w2 : WithTop Int) := h1
            · exact Or.inr (Or.inl h2)
            · rcases List.mem_cons.mp h3.2 with hbv | hbr
              · subst hbv
                have hau : a = u := h3.1
                subst hau
                have hw2 : g.weight a b = w2 := weight_eq_of_mem hwf he
                refine Or.inl ?_
                rw [hd2ne a hav, ← hw2]
                simp [updF]
              · exact Or.inr (Or.inr ⟨h3.1, hbr⟩)
      · rw [spfaRelax, if_pos hrel, if_neg hinq]
        have hvnq : v ∉ st.queue := fun hc => hinq ((hq.inqIff v).mpr hc)
        apply ih
        · intro x hx; exact hsub x (by simp [hx])
        · refine ⟨hri2, ?_, ?_⟩
          · intro x
            simp only [updF]
            by_cases hx : x = v
            · subst hx
              simp [List.mem_append]
            · simp only [if_neg hx, List.mem_append]
              rw [(hq.inqIff x)]
              simp [hx]
          · rw [List.nodup_append]
            exact ⟨hq.nodup, List.nodup_singleton v, by simpa using hvnq⟩
        · intro e he
          obtain ⟨a, b, w2⟩ := e
          simp only at *
          by_cases hav : a = v
          · subst hav
            exact Or.inr (Or.inl (by simp [List.mem_append]))
          · rcases hdirty (a, b, w2) he with h1 | h2 | h3
            · refine Or.inl ?_
              rw [hd2ne a hav]
              calc updF st.d v (st.d u + (g.weight u v : WithTop Int)) b ≤ st.d b := hd2le b
                _ ≤ st.d a + (w2 : WithTop Int) := h1
            · exact Or.inr (Or.inl (by simp [List.mem_append, h2]))
            · rcases List.mem_cons.mp h3.2 with hbv | hbr
              · subst hbv
                have hau : a = u := h3.1
                subst hau
                have hw2 : g.weight a b = w2 := weight_eq_of_mem hwf he
                refine Or.inl ?_
                rw [hd2ne a hav, ← hw2]
                simp [updF]
              · exact Or.inr (Or.inr ⟨h3.1, hbr⟩)
    · rw [spfaRelax, if_neg hrel]
      apply ih
      · intro x hx; exact hsub x (by simp [hx])
      · exact hq
      · intro e he
        obtain ⟨a, b, w2⟩ := e
        simp only at *
        rcases hdirty (a, b, w2) he with h1 | h2 | h3
        · exact Or.inl h1
        · exact Or.inr (Or.inl h2)
        · rcases List.mem_cons.mp h3.2 with hbv | hbr
          · subst hbv
            have hau : a = u := h3.1
            subst hau
            have hw2 : g.weight a b = w2 := weight_eq_of_mem hwf he
            rw [← hw2]
            exact Or.inl (not_lt.mp hrel)
          · exact Or.inr (Or.inr ⟨h3.1, hbr⟩)

theorem spfaLoop_spec {g : Graph} {s : Nat} (hwf : g.Wf) :
    ∀ (fuel : Nat) (st st2 : SpfaState),
      QInv g s st → DirtyOn g 0 [] st →
      spfaLoop g fuel st = some st2 →
      RelaxInv g s ⟨st2.d, st2.pred⟩ ∧ Stable g st2.d := by
  intro fuel
  induction fuel with
  | zero => intro st st2 _ _ h; cases h
  | succ n ih =>
    intro st st2 hq hdirty h
    rw [spfaLoop] at h
    cases hqe : st.queue with
    | nil =>
      rw [hqe] at h
      dsimp only at h
      injection h with h2
      subst h2
      refine ⟨hq.rinv, ?_⟩
      intro e he
      rcases hdirty e he with h1 | h2 | h3
      · exact h1
      · rw [hqe] at h2; cases h2
      · cases h3.2
    | cons u qs =>
      rw [hqe] at h
      dsimp only at h
      have hnodup : (u :: qs).Nodup := hqe ▸ hq.nodup
      have hunin : u ∉ qs := (List.nodup_cons.mp hnodup).1
      have hq1 : QInv g s ⟨qs, updF st.inq u false, st.d, st.pred⟩ := by
        refine ⟨hq.rinv, ?_, (List.nodup_cons.mp hnodup).2⟩
        intro x
        simp only [updF]
        by_cases hx : x = u
        · subst hx
          simp [hunin]
        · simp only [if_neg hx]
          rw [hq.inqIff x, hqe]
          simp [hx]
      have hdirty1 : DirtyOn g u (g.neighbors u) ⟨qs, updF st.inq u false, st.d, st.pred⟩ := by
        intro e he
        rcases hdirty e he with h1 | h2 | h3
        · exact Or.inl h1
        · rw [hqe] at h2
          rcases List.mem_cons.mp h2 with heu | heq
          · refine Or.inr (Or.inr ⟨heu, ?_⟩)
            obtain ⟨a, b, w2⟩ := e
            simp only at heu ⊢
            subst heu
            exact mem_neighbors_of_mem_edges he
          · exact Or.inr (Or.inl heq)
        · cases h3.2
      obtain ⟨hq2, hdirty2⟩ := spfaRelax_spec hwf (g.neighbors u) _ (fun x hx => hx) hq1 hdirty1
      have hdirty2b : DirtyOn g 0 []
          (spfaRelax g u (g.neighbors u) ⟨qs, updF st.inq u false, st.d, st.pred⟩) := by
        intro e he
        rcases hdirty2 e he with h1 | h2 | h3
        · exact Or.inl h1
        · exact Or.inr (Or.inl h2)
        · cases h3.2
      exact ih _ st2 hq2 hdirty2b h

theorem spfaInit_qinv (g : Graph) (s : Nat) :
    QInv g s (spfaInit s) ∧ DirtyOn g 0 [] (spfaInit s) := by
  constructor
  · refine ⟨relaxInv_init g s, ?_, List.nodup_singleton s⟩
    intro x
    simp only [spfaInit, updF]
    by_cases hx : x = s
    · subst hx; simp
    · simp [hx]
  · intro e he
    obtain ⟨a, b, w2⟩ := e
    simp only [spfaInit]
    by_cases ha : a = s
    · subst ha
      exact Or.inr (Or.inl (by simp))
    · refine Or.inl ?_
      simp only [dInit, if_neg ha]
      rw [WithTop.top_add]
      exact le_top

theorem spfa_state_spec {g : Graph} {s fuel : Nat} {st : SpfaState} (hwf : g.Wf)
    (h : spfaLoop g fuel (spfaInit s) = some st) :
    RelaxInv g s ⟨st.d, st.pred⟩ ∧ Stable g st.d := by
  obtain ⟨hq, hdirty⟩ := spfaInit_qinv g s
  exact spfaLoop_spec hwf fuel _ st hq hdirty h

/-- Any two stable, achievable relaxation states started from `s` carry
identical distance labellings: the key uniqueness fact behind
SPFA/Bellman-Ford agreement. -/
theorem stable_le_of_achievable {g : Graph} {s : Nat} {d1 d2 : DMap}
    (h1s : Stable g d1) (h1m : d1 s ≤ 0) (h2a : Achievable g s d2) :
    ∀ v, d1 v ≤ d2 v := by
  intro v
  by_cases h : d2 v = ⊤
  · rw [h]; exact le_top
  · obtain ⟨p, hp, hpc⟩ := h2a v h
    calc d1 v ≤ d1 s + (walkCost g p : WithTop Int) := stable_walk_le h1s hp
      _ ≤ 0 + (walkCost g p : WithTop Int) := add_le_add_right h1m _
      _ = d2 v := by rw [zero_add, hpc]

theorem stable_achiev_eq {g : Graph} {s : Nat} {st1 st2 : RState}
    (hi1 : RelaxInv g s st1) (hs1 : Stable g st1.d)
    (hi2 : RelaxInv g s st2) (hs2 : Stable g st2.d) :
    ∀ v, st1.d v = st2.d v := by
  intro v
  have hm1 : st1.d s ≤ 0 := by
    have := hi1.mono s; simpa [dInit] using this
  have hm2 : st2.d s ≤ 0 := by
    have := hi2.mono s; simpa [dInit] using this
  exact le_antisymm (stable_le_of_achievable hs1 hm1 hi2.achiev v)
    (stable_le_of_achievable hs2 hm2 hi1.achiev v)

theorem spfa_sound {g : Graph} {s e fuel cfuel : Nat} {out : PyOutcome} (hwf : g.Wf)
    (h : Spfa.shortest_path g s e fuel cfuel = some out) : ValidOut g s e out := by
  unfold Spfa.shortest_path at h
  cases hl : spfaLoop g fuel (spfaInit s) with
  | none => rw [hl] at h; cases h
  | some st =>
    rw [hl] at h
    dsimp only at h
    obtain ⟨hinv, hst⟩ := spfa_state_spec hwf hl
    cases hc : chainFrom st.pred cfuel e with
    | none => rw [hc] at h; cases h
    | some path =>
      rw [hc] at h
      dsimp only at h
      injection h with h2
      rw [← h2]
      by_cases hfin : st.d e = ⊤
      · -- unreachable target: the chain is the single node `e`, which
        -- cannot start at `s`, so the sentinel is returned
        have hpn : st.pred e = none := by
          cases hpe : st.pred e with
          | none => rfl
          | some u =>
            exfalso
            have h3 : st.d e < dInit s e := hinv.predStrict e u hpe
            rw [hfin] at h3
            exact absurd h3 (by simp)
        have hpath : path = [e] := by
          cases cfuel with
          | zero => simp [chainFrom] at hc
          | succ n =>
            rw [chainFrom, hpn] at hc
            dsimp only at hc
            exact (Option.some_injective _ hc).symm
        have hes : e ≠ s := by
          intro hc2
          subst hc2
          have h4 : st.d e = 0 := (stable_d_start hinv hst).1
          rw [hfin] at h4
          simp at h4
        subst hpath
        rw [if_neg (by simp [hes])]
        show st.d e = ⊤
        exact hfin
      · obtain ⟨hwalk, hcost⟩ := chainFrom_spec hwf hinv hst cfuel e path hc hfin
        rw [if_pos hwalk.2.1]
        exact ⟨hwalk, hcost.symm⟩

/-! ## DAG shortest path (src/src/algorithms/dag_shortest_path.py) -/

/-- One selection of Kahn's algorithm: the first remaining node with no
incoming edge from a remaining node. -/
def kahnPick (edges : List (Nat × Nat × Int)) (rem : List Nat) : Option Nat :=
  rem.find? (fun x => !(edges.any (fun e => e.2.1 == x && rem.contains e.1)))

/-- Kahn's algorithm main loop (fuel = number of nodes). -/
def kahnAux (edges : List (Nat × Nat × Int)) : Nat → List Nat → List Nat → Option (List Nat)
  | 0, rem, acc => if rem.isEmpty then some acc else none
  | fuel + 1, rem, acc =>
    if rem.isEmpty then some acc
    else
      match kahnPick edges rem with
      | none => none
      | some x => kahnAux edges fuel (rem.erase x) (acc ++ [x])

/-- Modelled from the spec: `nx.is_directed_acyclic_graph` plus
`nx.topological_sort` (§4.4: the precondition check fails on a cyclic
graph before any computation, and nodes are then processed in
topological order).  Kahn's algorithm: succeeds with a topological
order exactly on acyclic graphs. -/
def topoSort (g : Graph) : Option (List Nat) :=
  kahnAux g.edges g.nodes.length g.nodes []

/-- Every edge leaving the head of the list points strictly later into
the list — the property of a topological order that the relaxation
sweep relies on. -/
def TopoFwd (edges : List (Nat × Nat × Int)) : List Nat → Prop
  | [] => True
  | x :: rest => (∀ e ∈ edges, e.1 = x → e.2.1 ∈ rest) ∧ TopoFwd edges rest

/-- `for v in graph.successors(u): ...` — relax all out-edges of `u`. -/
def dagRelaxNode (g : Graph) (u : Nat) (st : RState) : RState :=
  (g.neighbors u).foldl (fun st2 v => relaxEdge st2 (u, v, g.weight u v)) st

/-- The relaxation sweep over a topological order `ts`. -/
def dagState (g : Graph) (s : Nat) (ts : List Nat) : RState :=
  ts.foldl (fun st u => dagRelaxNode g u st) (rInit s)

/-- The reconstruction loop of `dag_shortest_path.py`:
`while current: path.insert(0, current); current = predecessor[current]`.
The loop guard is Python truthiness, so it stops at `None` and also at
the falsy node identifier `0`. -/
def chainTruthy (pred : PMap) : Nat → Option Nat → Option (List Nat)
  | _, none => some []
  | _, some 0 => some []
  | 0, some (_ + 1) => none
  | fuel + 1, some (k + 1) =>
    (chainTruthy pred fuel (pred (k + 1))).map (fun l => l ++ [k + 1])

namespace DagShortestPath

/-- `src/src/algorithms/dag_shortest_path.py shortest_path`. -/
def shortest_path (g : Graph) (s e : Nat) (cfuel : Nat) : Option PyOutcome :=
  match topoSort g with
  | none => some (.err "Graph is not a DAG")
  | some ts =>
    let st := dagState g s ts
    match chainTruthy st.pred cfuel (some e) with
    | none => none
    | some path =>
      match path.head? with
      | none => some (.err "IndexError: list index out of range")
      | some h => some (.res (if h = s then some path else none) (st.d e))

end DagShortestPath

theorem kahnPick_spec {edges : List (Nat × Nat × Int)} {rem : List Nat} {y : Nat}
    (h : kahnPick edges rem = some y) :
    y ∈ rem ∧ ∀ e ∈ edges, ¬(e.2.1 = y ∧ e.1 ∈ rem) := by
  unfold kahnPick at h
  refine ⟨List.mem_of_find?_eq_some h, ?_⟩
  have hp := List.find?_some h
  rw [Bool.not_eq_eq_eq_not, Bool.not_true, List.any_eq_false] at hp
  intro e he hand
  have hq := hp e he
  apply hq
  rw [Bool.and_eq_true, beq_iff_eq]
  exact ⟨hand.1, List.elem_eq_true_of_mem hand.2⟩

theorem kahnAux_spec (edges : List (Nat × Nat × Int)) :
    ∀ (fuel : Nat) (rem acc ts : List Nat),
      kahnAux edges fuel rem acc = some ts →
      (∀ x ∈ rem, ∀ e ∈ edges, e.1 = x → e.2.1 ∉ acc) →
      (∀ e ∈ edges, e.2.1 ∈ acc ∨ e.2.1 ∈ rem) →
      ∃ tail, ts = acc ++ tail ∧ tail.Perm rem ∧ TopoFwd edges tail := by
  intro fuel
  induction fuel with
  | zero =>
    intro rem acc ts h _ _
    unfold kahnAux at h
    by_cases hre : rem.isEmpty
    · rw [if_pos hre] at h
      injection h with h2
      refine ⟨[], by simp [h2.symm], ?_, trivial⟩
      rw [List.isEmpty_iff] at hre
      rw [hre]
    · rw [if_neg hre] at h
      cases h
  | succ n ih =>
    intro rem acc ts h hnoback hends
    unfold kahnAux at h
    by_cases hre : rem.isEmpty
    · rw [if_pos hre] at h
      injection h with h2
      refine ⟨[], by simp [h2.symm], ?_, trivial⟩
      rw [List.isEmpty_iff] at hre
      rw [hre]
    · rw [if_neg hre] at h
      cases hpick : kahnPick edges rem with
      | none => rw [hpick] at h; cases h
      | some y =>
        rw [hpick] at h
        obtain ⟨hymem, hysel⟩ := kahnPick_spec hpick
        have hnoback2 : ∀ x ∈ rem.erase y, ∀ e ∈ edges, e.1 = x → e.2.1 ∉ acc ++ [y] := by
          intro x hx e he hex
          have hxrem : x ∈ rem := List.mem_of_mem_erase hx
          have hold := hnoback x hxrem e he hex
          rw [List.mem_append]
          rintro (hc | hc)
          · exact hold hc
          · rw [List.mem_singleton] at hc
            exact hysel e he ⟨hc, hex ▸ hxrem⟩
        have hends2 : ∀ e ∈ edges, e.2.1 ∈ acc ++ [y] ∨ e.2.1 ∈ rem.erase y := by
          intro e he
          rcases hends e he with hc | hc
          · exact Or.inl (List.mem_append_left _ hc)
          · by_cases hey : e.2.1 = y
            · exact Or.inl (List.mem_append_right _ (by simp [hey]))
            · exact Or.inr (List.mem_erase_of_ne hey |>.mpr hc)
        obtain ⟨tail, hts, hperm, htf⟩ := ih (rem.erase y) (acc ++ [y]) ts h hnoback2 hends2
        refine ⟨y :: tail, by simpa using hts, ?_, ?_, htf⟩
        · exact (List.Perm.cons y hperm).trans (List.perm_cons_erase hymem).symm
        · intro e he hey
          have htarget : e.2.1 ∈ rem.erase y := by
            rcases hends e he with hc | hc
            · exact absurd hc (hnoback y hymem e he hey)
            · by_cases heqy : e.2.1 = y
              · exact absurd ⟨heqy, hey ▸ hymem⟩ (hysel e he)
              · exact (List.mem_erase_of_ne heqy).mpr hc
          exact hperm.mem_iff.mpr htarget

theorem topoSort_spec {g : Graph} {ts : List Nat} (hwf : g.Wf)
    (h : topoSort g = some ts) :
    ts.Perm g.nodes ∧ TopoFwd g.edges ts ∧ ts.Nodup := by
  obtain ⟨tail, hts, hperm, htf⟩ := kahnAux_spec g.edges g.nodes.length g.nodes [] ts h
    (by intro x _ e _ _; simp)
    (by intro e he; exact Or.inr (hwf.2.2 e he).2)
  rw [List.nil_append] at hts
  subst hts
  exact ⟨hperm, htf, hperm.nodup_iff.mpr hwf.1⟩

theorem dagRelaxNode_d_spec {g : Graph} (x : Nat) :
    ∀ (vs : List Nat) (st : RState),
      (∀ v ∈ vs, v ≠ x) →
      (vs.foldl (fun st2 v => relaxEdge st2 (x, v, g.weight x v)) st).d x = st.d x ∧
      (∀ y, (vs.foldl (fun st2 v => relaxEdge st2 (x, v, g.weight x v)) st).d y ≤ st.d y) ∧
      (∀ y, y ∉ vs →
        (vs.foldl (fun st2 v => relaxEdge st2 (x, v, g.weight x v)) st).d y = st.d y) ∧
      (∀ v ∈ vs,
        (vs.foldl (fun st2 v2 => relaxEdge st2 (x, v2, g.weight x v2)) st).d v ≤
        (vs.foldl (fun st2 v2 => relaxEdge st2 (x, v2, g.weight x v2)) st).d x +
          (g.weight x v : WithTop Int)) := by
  intro vs
  induction vs with
  | nil =>
    intro st _
    exact ⟨rfl, fun y => le_refl _, fun y _ => rfl, fun v hv => absurd hv (List.not_mem_nil v)⟩
  | cons v vs2 ih =>
    intro st hvx
    have hvnex : v ≠ x := hvx v (by simp)
    simp only [List.foldl_cons]
    have hstep := ih (relaxEdge st (x, v, g.weight x v)) (fun w hw => hvx w (by simp [hw]))
    obtain ⟨ihx, ihle, ihfix, ihout⟩ := hstep
    have hst1x : (relaxEdge st (x, v, g.weight x v)).d x = st.d x := by
      unfold relaxEdge
      split
      · simp only [updF]
        rw [if_neg (Ne.symm hvnex |> fun hne => by simpa using hne)]
      · rfl
    have hst1le : ∀ y, (relaxEdge st (x, v, g.weight x v)).d y ≤ st.d y :=
      relaxEdge_d_le st (x, v, g.weight x v)
    have hst1fix : ∀ y, y ≠ v → (relaxEdge st (x, v, g.weight x v)).d y = st.d y := by
      intro y hyv
      unfold relaxEdge
      split
      · simp only [updF]
        rw [if_neg hyv]
      · rfl
    have hst1v : (relaxEdge st (x, v, g.weight x v)).d v ≤
        (relaxEdge st (x, v, g.weight x v)).d x + (g.weight x v : WithTop Int) := by
      rw [hst1x]
      unfold relaxEdge
      split
      · next hlt =>
        simp only [updF, if_pos rfl]
        simp only at hlt
        exact le_refl _
      · next hlt =>
        simp only at hlt
        exact not_lt.mp hlt
    refine ⟨by rw [ihx, hst1x], ?_, ?_, ?_⟩
    · intro y
      exact le_trans (ihle y) (hst1le y)
    · intro y hy
      rw [List.mem_cons] at hy
      push_neg at hy
      rw [ihfix y hy.2, hst1fix y hy.1]
    · intro w hw
      rw [List.mem_cons] at hw
      rcases hw with hwv | hw2
      · subst hwv
        by_cases hwin : w ∈ vs2
        · exact ihout w hwin
        · rw [ihfix w hwin, ihx]
          exact hst1v
      · exact ihout w hw2

theorem dagFold_stable {g : Graph} (hwf : g.Wf) :
    ∀ (ts : List Nat) (st : RState),
      TopoFwd g.edges ts → ts.Nodup →
      (∀ e ∈ g.edges, e.1 ∉ ts → st.d e.2.1 ≤ st.d e.1 + (e.2.2 : WithTop Int)) →
      ∀ e ∈ g.edges,
        (ts.foldl (fun st2 u => dagRelaxNode g u st2) st).d e.2.1 ≤
        (ts.foldl (fun st2 u => dagRelaxNode g u st2) st).d e.1 + (e.2.2 : WithTop Int) := by
  intro ts
  induction ts with
  | nil =>
    intro st _ _ hpre e he
    exact hpre e he (List.not_mem_nil _)
  | cons x tail ih =>
    intro st htf hnodup hpre
    obtain ⟨hhead, htf2⟩ := htf
    have hxtail : x ∉ tail := (List.nodup_cons.mp hnodup).1
    have hnbne : ∀ v ∈ g.neighbors x, v ≠ x := by
      intro v hv hc
      subst hc
      have := hhead _ (isEdge_mem_edges (mem_neighbors.mp hv)) rfl
      exact hxtail this
    obtain ⟨hfx, hfle, hffix, hfout⟩ := dagRelaxNode_d_spec x (g.neighbors x) st hnbne
    simp only [List.foldl_cons]
    apply ih (dagRelaxNode g x st) htf2 (List.nodup_cons.mp hnodup).2
    rintro ⟨a, b, w2⟩ he hnotin
    simp only at hnotin ⊢
    by_cases hax : a = x
    · -- just-processed source: its out-edges are now relaxed
      subst hax
      have hnb : b ∈ g.neighbors a := mem_neighbors_of_mem_edges he
      have hout := hfout b hnb
      have hw : g.weight a b = w2 := weight_eq_of_mem hwf he
      rw [hw] at hout
      exact hout
    · -- source processed earlier (or never occurring): its distance is
      -- untouched by processing x, and targets only decrease
      have hnotcons : a ∉ x :: tail := by
        rw [List.mem_cons]
        push_neg
        exact ⟨hax, hnotin⟩
      have hold := hpre (a, b, w2) he hnotcons
      simp only at hold
      have hsrc_fix : (dagRelaxNode g x st).d a = st.d a := by
        apply hffix
        intro hc
        exact hnotin (hhead _ (isEdge_mem_edges (mem_neighbors.mp hc)) rfl)
      calc (dagRelaxNode g x st).d b ≤ st.d b := hfle b
        _ ≤ st.d a + (w2 : WithTop Int) := hold
        _ = (dagRelaxNode g x st).d a + (w2 : WithTop Int) := by rw [hsrc_fix]

theorem dagRelaxNode_inv {g : Graph} {s : Nat} (hwf : g.Wf) {st : RState}
    (hinv : RelaxInv g s st) (u : Nat) : RelaxInv g s (dagRelaxNode g u st) := by
  unfold dagRelaxNode
  apply foldl_inv _ _ _ hinv
  intro st2 v hv hp
  exact relaxEdge_inv hwf hp (isEdge_mem_edges (mem_neighbors.mp hv))

theorem dagState_inv {g : Graph} (hwf : g.Wf) (s : Nat) (ts : List Nat) :
    RelaxInv g s (dagState g s ts) := by
  unfold dagState
  apply foldl_inv _ _ _ (relaxInv_init g s)
  intro st2 u _ hp
  exact dagRelaxNode_inv hwf hp u

theorem dagState_stable {g : Graph} (hwf : g.Wf) (s : Nat) {ts : List Nat}
    (htf : TopoFwd g.edges ts) (hnodup : ts.Nodup) (hall : ∀ e ∈ g.edges, e.1 ∈ ts) :
    Stable g (dagState g s ts).d := by
  intro e he
  exact dagFold_stable hwf ts (rInit s) htf hnodup
    (fun e2 he2 hno => absurd (hall e2 he2) hno) e he

theorem chainTruthy_none (pred : PMap) : ∀ fuel, chainTruthy pred fuel none = some [] := by
  intro fuel
  cases fuel <;> rfl

theorem chainTruthy_eq_chainFrom {pred : PMap} (hpz : ∀ v u, pred v = some u → u ≠ 0) :
    ∀ (fuel : Nat) (v : Nat), v ≠ 0 →
      chainTruthy pred fuel (some v) = chainFrom pred fuel v := by
  intro fuel
  induction fuel with
  | zero =>
    intro v hv
    obtain ⟨k, hk⟩ := Nat.exists_eq_succ_of_ne_zero hv
    subst hk
    rfl
  | succ n ih =>
    intro v hv
    obtain ⟨k, hk⟩ := Nat.exists_eq_succ_of_ne_zero hv
    subst hk
    show (chainTruthy pred n (pred (k + 1))).map (fun l => l ++ [k + 1]) = _
    rw [chainFrom]
    cases hp : pred (k + 1) with
    | none => rw [chainTruthy_none]; rfl
    | some u =>
      have hu : u ≠ 0 := hpz (k + 1) u hp
      rw [ih u hu]

theorem dag_sound {g : Graph} {s e cfuel : Nat} {out : PyOutcome} (hwf : g.Wf)
    (hz : 0 ∉ g.nodes) (he : e ∈ g.nodes)
    (h : DagShortestPath.shortest_path g s e cfuel = some out) : ValidOut g s e out := by
  unfold DagShortestPath.shortest_path at h
  cases hts : topoSort g with
  | none =>
    rw [hts] at h
    injection h with h2
    rw [← h2]
    trivial
  | some ts =>
    rw [hts] at h
    dsimp only at h
    obtain ⟨hperm, htf, hnodup⟩ := topoSort_spec hwf hts
    have hinv := dagState_inv hwf s ts
    have hst : Stable g (dagState g s ts).d :=
      dagState_stable hwf s htf hnodup
        (fun e2 he2 => hperm.mem_iff.mpr (hwf.2.2 e2 he2).1)
    have hpz : ∀ v u, (dagState g s ts).pred v = some u → u ≠ 0 := by
      intro v u hp hu
      subst hu
      have hedge := hinv.predEdge v 0 hp
      have := (hwf.2.2 _ (isEdge_mem_edges hedge)).1
      exact hz this
    have hez : e ≠ 0 := fun hc => hz (hc ▸ he)
    rw [chainTruthy_eq_chainFrom hpz cfuel e hez] at h
    cases hc : chainFrom (dagState g s ts).pred cfuel e with
    | none => rw [hc] at h; cases h
    | some path =>
      rw [hc] at h
      dsimp only at h
      by_cases hfin : (dagState g s ts).d e = ⊤
      · have hpn : (dagState g s ts).pred e = none := by
          cases hpe : (dagState g s ts).pred e with
          | none => rfl
          | some u =>
            exfalso
            have h3 : (dagState g s ts).d e < dInit s e := hinv.predStrict e u hpe
            rw [hfin] at h3
            exact absurd h3 (by simp)
        have hpath : path = [e] := by
          cases cfuel with
          | zero => simp [chainFrom] at hc
          | succ n =>
            rw [chainFrom, hpn] at hc
            dsimp only at hc
            exact (Option.some_injective _ hc).symm
        have hes : e ≠ s := by
          intro hc2
          have h4 : (dagState g s ts).d s = 0 := (stable_d_start hinv hst).1
          rw [hc2] at hfin
          rw [h4] at hfin
          simp at hfin
        subst hpath
        simp only [List.head?_cons] at h
        injection h with h2
        rw [← h2]
        rw [if_neg hes]
        show (dagState g s ts).d e = ⊤
        exact hfin
      · obtain ⟨hwalk, hcost⟩ := chainFrom_spec hwf hinv hst cfuel e path hc hfin
        have hhd := hwalk.2.1
        cases hpd : path.head? with
        | none => rw [hpd] at hhd; cases hhd
        | some hnode =>
          rw [hpd] at hhd
          injection hhd with hhd2
          rw [hpd] at h
          dsimp only at h
          injection h with h2
          rw [← h2, if_pos hhd2]
          exact ⟨hwalk, hcost.symm⟩

/-! ## Dijkstra (src/src/algorithms/dijkstra.py) -/

/-- A heap entry `(cost, node, path)` as pushed by `dijkstra.py`. -/
abbrev Entry := Int × Nat × List Nat

/-- Python list comparison (lexicographic). -/
def listLe : List Nat → List Nat → Bool
  | [], _ => true
  | _ :: _, [] => false
  | a :: as, b :: bs => if a < b then true else if b < a then false else listLe as bs

theorem listLe_cons_iff {x y : Nat} {xs ys : List Nat} :
    listLe (x :: xs) (y :: ys) = true ↔ x < y ∨ (x = y ∧ listLe xs ys = true) := by
  simp only [listLe]
  split_ifs with h1 h2
  · simp [h1]
  · constructor
    · intro hc; cases hc
    · rintro (hc | ⟨hc, _⟩) <;> omega
  · have hxy : x = y := by omega
    simp [hxy]

theorem listLe_total : ∀ (a b : List Nat), listLe a b = true ∨ listLe b a = true := by
  intro a
  induction a with
  | nil => intro b; left; rfl
  | cons x xs ih =>
    intro b
    cases b with
    | nil => right; rfl
    | cons y ys =>
      rw [listLe_cons_iff, listLe_cons_iff]
      by_cases hxy : x = y
      · rcases ih ys with h | h
        · left; right; exact ⟨hxy, h⟩
        · right; right; exact ⟨hxy.symm, h⟩
      · by_cases hlt : x < y
        · left; left; exact hlt
        · right; left; omega

theorem listLe_trans : ∀ (a b c : List Nat),
    listLe a b = true → listLe b c = true → listLe a c = true := by
  intro a
  induction a with
  | nil => intro b c _ _; rfl
  | cons x xs ih =>
    intro b c hab hbc
    cases b with
    | nil => simp [listLe] at hab
    | cons y ys =>
      cases c with
      | nil => simp [listLe] at hbc
      | cons z zs =>
        rw [listLe_cons_iff] at hab hbc ⊢
        rcases hab with h1 | ⟨h1, h1b⟩ <;> rcases hbc with h2 | ⟨h2, h2b⟩
        · left; omega
        · left; omega
        · left; omega
        · right; exact ⟨by omega, ih ys zs h1b h2b⟩

/-- Python tuple comparison on heap entries (cost, then node, then path). -/
def entryLe (x y : Entry) : Bool :=
  if x.1 < y.1 then true
  else if y.1 < x.1 then false
  else if x.2.1 < y.2.1 then true
  else if y.2.1 < x.2.1 then false
  else listLe x.2.2 y.2.2

/-- The heap order as a decidable relation. -/
def entryR (x y : Entry) : Prop := entryLe x y = true

instance : DecidableRel entryR := fun x y => by
  unfold entryR; infer_instance

theorem entryLe_iff {x y : Entry} :
    entryLe x y = true ↔
      x.1 < y.1 ∨ (x.1 = y.1 ∧ (x.2.1 < y.2.1 ∨ (x.2.1 = y.2.1 ∧ listLe x.2.2 y.2.2 = true))) := by
  unfold entryLe
  split_ifs with h1 h2 h3 h4
  · simp [h1]
  · constructor
    · intro hc; cases hc
    · rintro (hc | ⟨hc, _⟩) <;> omega
  · constructor
    · intro _; right; exact ⟨by omega, Or.inl h3⟩
    · intro _; rfl
  · constructor
    · intro hc; cases hc
    · rintro (hc | ⟨hc, hd | ⟨hd, _⟩⟩) <;> omega
  · constructor
    · intro hl; right; exact ⟨by omega, Or.inr ⟨by omega, hl⟩⟩
    · rintro (hc | ⟨hc, hd | ⟨hd, hl⟩⟩)
      · omega
      · omega
      · exact hl

instance : IsTotal Entry entryR := by
  constructor
  intro x y
  unfold entryR
  rw [entryLe_iff, entryLe_iff]
  by_cases hc : x.1 = y.1
  · by_cases hn : x.2.1 = y.2.1
    · rcases listLe_total x.2.2 y.2.2 with h | h
      · left; right; exact ⟨hc, Or.inr ⟨hn, h⟩⟩
      · right; right; exact ⟨hc.symm, Or.inr ⟨hn.symm, h⟩⟩
    · by_cases hlt : x.2.1 < y.2.1
      · left; right; exact ⟨hc, Or.inl hlt⟩
      · right; right; exact ⟨hc.symm, Or.inl (by omega)⟩
  · by_cases hlt : x.1 < y.1
    · left; left; exact hlt
    · right; left; omega

instance : IsTrans Entry entryR := by
  constructor
  intro x y z hxy hyz
  unfold entryR at hxy hyz ⊢
  rw [entryLe_iff] at hxy hyz ⊢
  rcases hxy with h1 | ⟨h1, h1b⟩ <;> rcases hyz with h2 | ⟨h2, h2b⟩
  · left; omega
  · left; omega
  · left; omega
  · right
    refine ⟨by omega, ?_⟩
    rcases h1b with h3 | ⟨h3, h3b⟩ <;> rcases h2b with h4 | ⟨h4, h4b⟩
    · left; omega
    · left; omega
    · left; omega
    · right; exact ⟨by omega, listLe_trans _ _ _ h3b h4b⟩

theorem entryR_fst_le {x y : Entry} (h : entryR x y) : x.1 ≤ y.1 := by
  unfold entryR at h
  rw [entryLe_iff] at h
  rcases h with h | ⟨h, _⟩ <;> omega

/-- The Dijkstra main loop (`while pq:`), with fuel.  The heap is
modelled as a list sorted by the Python tuple order: `heappop` takes
the head, `heappush` is ordered insertion — observationally identical
to the binary heap since the order is total and equal tuples are
indistinguishable. -/
def dijkstraLoop (g : Graph) (en : Nat) : Nat → List Entry → List Nat → Option PyOutcome
  | 0, _, _ => none
  | _ + 1, [], _ => some (.res none ⊤)
  | fuel + 1, (c, n, p) :: rest, visited =>
    if n ∈ visited then dijkstraLoop g en fuel rest visited
    else
      if n = en then some (.res (some (p ++ [n])) (c : WithTop Int))
      else
        dijkstraLoop g en fuel
          ((g.neighbors n).foldl
            (fun q nb =>
              if nb ∈ n :: visited then q
              else List.orderedInsert entryR (c + g.weight n nb, nb, p ++ [n]) q)
            rest)
          (n :: visited)

namespace Dijkstra

/-- `src/src/algorithms/dijkstra.py shortest_path`. -/
def shortest_path (g : Graph) (s e : Nat) (fuel : Nat) : Option PyOutcome :=
  dijkstraLoop g e fuel [(0, s, [])] []

end Dijkstra

/-- A heap entry is honest: its path (extended by its node) is a walk
from the source whose cost is the entry's cost. -/
def EntryOk (g : Graph) (s : Nat) (x : Entry) : Prop :=
  IsWalk g s x.2.1 (x.2.2 ++ [x.2.1]) ∧ walkCost g (x.2.2 ++ [x.2.1]) = x.1

/-- The Dijkstra loop invariant: honest sorted heap, the start is
settled or still pending, and every boundary edge of the settled set
has a pending heap entry with a suitably small cost. -/
structure DijInv (g : Graph) (s : Nat) (pq : List Entry) (visited : List Nat) : Prop where
  entries : ∀ x ∈ pq, EntryOk g s x
  sorted : List.Pairwise entryR pq
  start : s ∈ visited ∨ ((0 : Int), s, ([] : List Nat)) ∈ pq
  frontier : ∀ x ∈ visited, ∀ y, y ∉ visited → g.isEdge x y = true →
    ∃ entr ∈ pq, entr.2.1 = y ∧
      (Nonneg g → ∀ q, IsWalk g s x q → (entr.1 : Int) ≤ walkCost g q + g.weight x y)

theorem pushFold_mem (g : Graph) (c : Int) (n : Nat) (path : List Nat) (excl : List Nat) :
    ∀ (nbs : List Nat) (pq : List Entry) (x : Entry),
      (x ∈ nbs.foldl
        (fun q nb => if nb ∈ excl then q
                     else List.orderedInsert entryR (c + g.weight n nb, nb, path) q) pq) ↔
      (x ∈ pq ∨ ∃ nb ∈ nbs, nb ∉ excl ∧ x = (c + g.weight n nb, nb, path)) := by
  intro nbs
  induction nbs with
  | nil => intro pq x; simp
  | cons nb nbs2 ih =>
    intro pq x
    simp only [List.foldl_cons]
    by_cases hnb : nb ∈ excl
    · rw [if_pos hnb, ih]
      constructor
      · rintro (hx | ⟨nb2, hnb2, hne, hxe⟩)
        · exact Or.inl hx
        · exact Or.inr ⟨nb2, by simp [hnb2], hne, hxe⟩
      · rintro (hx | ⟨nb2, hnb2, hne, hxe⟩)
        · exact Or.inl hx
        · rcases List.mem_cons.mp hnb2 with hq | hq
          · subst hq; exact absurd hnb hne
          · exact Or.inr ⟨nb2, hq, hne, hxe⟩
    · rw [if_neg hnb, ih]
      rw [List.mem_orderedInsert]
      constructor
      · rintro ((hx | hx) | ⟨nb2, hnb2, hne, hxe⟩)
        · exact Or.inr ⟨nb, by simp, hnb, hx⟩
        · exact Or.inl hx
        · exact Or.inr ⟨nb2, by simp [hnb2], hne, hxe⟩
      · rintro (hx | ⟨nb2, hnb2, hne, hxe⟩)
        · exact Or.inl (Or.inr hx)
        · rcases List.mem_cons.mp hnb2 with hq | hq
          · subst hq; exact Or.inl (Or.inl hxe)
          · exact Or.inr ⟨nb2, hq, hne, hxe⟩

theorem pushFold_sorted (g : Graph) (c : Int) (n : Nat) (path : List Nat) (excl : List Nat) :
    ∀ (nbs : List Nat) (pq : List Entry), List.Pairwise entryR pq →
      List.Pairwise entryR
        (nbs.foldl (fun q nb => if nb ∈ excl then q
          else List.orderedInsert entryR (c + g.weight n nb, nb, path) q) pq) := by
  intro nbs
  induction nbs with
  | nil => intro pq h; exact h
  | cons nb nbs2 ih =>
    intro pq h
    simp only [List.foldl_cons]
    by_cases hnb : nb ∈ excl
    · rw [if_pos hnb]; exact ih pq h
    · rw [if_neg hnb]
      exact ih _ (List.Sorted.orderedInsert _ _ h)

theorem exists_entry_aux {g : Graph} {s : Nat} {pq : List Entry} {visited : List Nat}
    (hfront : ∀ x ∈ visited, ∀ y, y ∉ visited → g.isEdge x y = true →
      ∃ entr ∈ pq, entr.2.1 = y ∧
        (Nonneg g → ∀ q, IsWalk g s x q → (entr.1 : Int) ≤ walkCost g q + g.weight x y)) :
    ∀ (suffix : List Nat) (x t : Nat) (pre : List Nat),
      IsWalk g s x pre → IsWalk g x t (x :: suffix) → x ∈ visited → t ∉ visited →
      ∃ entr ∈ pq,
        (Nonneg g → (entr.1 : Int) ≤ walkCost g pre + walkCost g (x :: suffix)) := by
  intro suffix
  induction suffix with
  | nil =>
    intro x t pre _ hwalk hx ht
    exfalso
    have : x = t := by
      have := hwalk.2.2.1
      simp at this
      exact this
    exact ht (this ▸ hx)
  | cons v suffix2 ih =>
    intro x t pre hpre hwalk hx ht
    obtain ⟨hedge, hwalk2⟩ := hwalk.cons_step
    have hcost_eq : walkCost g (x :: v :: suffix2) =
        g.weight x v + walkCost g (v :: suffix2) := by
      simp [walkCost]
    by_cases hv : v ∈ visited
    · obtain ⟨entr, hmem, hb⟩ := ih v t (pre ++ [v]) (hpre.snoc hedge) hwalk2 hv ht
      refine ⟨entr, hmem, ?_⟩
      intro hnn
      have := hb hnn
      rw [walkCost_snoc hpre.1 hpre.2.2.1] at this
      rw [hcost_eq]
      calc (entr.1 : Int) ≤ walkCost g pre + g.weight x v + walkCost g (v :: suffix2) := this
        _ = walkCost g pre + (g.weight x v + walkCost g (v :: suffix2)) := by ring
    · obtain ⟨entr, hmem, _, hb⟩ := hfront x hx v hv hedge
      refine ⟨entr, hmem, ?_⟩
      intro hnn
      have h1 := hb hnn pre hpre
      have h2 : 0 ≤ walkCost g (v :: suffix2) := walkCost_nonneg hnn hwalk2.2.2.2
      rw [hcost_eq]
      omega

theorem exists_entry_of_walk {g : Graph} {s : Nat} {pq : List Entry} {visited : List Nat}
    (hfront : ∀ x ∈ visited, ∀ y, y ∉ visited → g.isEdge x y = true →
      ∃ entr ∈ pq, entr.2.1 = y ∧
        (Nonneg g → ∀ q, IsWalk g s x q → (entr.1 : Int) ≤ walkCost g q + g.weight x y))
    (hstart : s ∈ visited ∨ ((0 : Int), s, ([] : List Nat)) ∈ pq) :
    ∀ (q : List Nat) (t : Nat), IsWalk g s t q → t ∉ visited →
      ∃ entr ∈ pq, (Nonneg g → (entr.1 : Int) ≤ walkCost g q) := by
  intro q t hq ht
  rcases hstart with hs | hs
  · cases q with
    | nil => exact absurd rfl hq.1
    | cons a tail =>
      have has : a = s := hq.head_eq
      subst has
      obtain ⟨entr, hmem, hb⟩ :=
        exists_entry_aux hfront tail a t [a] (IsWalk.single g a) hq hs ht
      refine ⟨entr, hmem, ?_⟩
      intro hnn
      have := hb hnn
      simpa [walkCost] using this
  · refine ⟨_, hs, ?_⟩
    intro hnn
    exact walkCost_nonneg hnn hq.2.2.2

theorem pop_min_le {g : Graph} {s : Nat} {c : Int} {n : Nat} {p : List Nat}
    {rest : List Entry} {visited : List Nat}
    (hinv : DijInv g s ((c, n, p) :: rest) visited) (hn : n ∉ visited) (hnn : Nonneg g) :
    ∀ q, IsWalk g s n q → c ≤ walkCost g q := by
  intro q hq
  obtain ⟨entr, hmem, hb⟩ := exists_entry_of_walk hinv.frontier hinv.start q n hq hn
  have hbb := hb hnn
  rcases List.mem_cons.mp hmem with he | he
  · rw [he] at hbb
    exact hbb
  · have hrel := (List.pairwise_cons.mp hinv.sorted).1 entr he
    have := entryR_fst_le hrel
    simp only at this
    omega

/-- What Dijkstra's results guarantee: a returned path is a genuine
walk with its literal cost, minimal among all walks when weights are
non-negative; a returned sentinel means no walk exists at all. -/
def DijOut (g : Graph) (s en : Nat) (out : PyOutcome) : Prop :=
  (∀ p c, out = .res (some p) c → IsWalk g s en p ∧ c = (walkCost g p : WithTop Int) ∧
    (Nonneg g → ∀ q, IsWalk g s en q → c ≤ (walkCost g q : WithTop Int))) ∧
  (∀ c, out = .res none c → c = ⊤ ∧ ¬ ∃ q, IsWalk g s en q)

theorem dijkstraLoop_spec {g : Graph} {s en : Nat} :
    ∀ (fuel : Nat) (pq : List Entry) (visited : List Nat) (out : PyOutcome),
      DijInv g s pq visited → en ∉ visited →
      dijkstraLoop g en fuel pq visited = some out → DijOut g s en out := by
  intro fuel
  induction fuel with
  | zero => intro pq visited out _ _ h; cases h
  | succ m ih =>
    intro pq visited out hinv hen h
    cases pq with
    | nil =>
      rw [dijkstraLoop] at h
      injection h with h2
      constructor
      · intro p c heq
        rw [← h2] at heq
        cases heq
      · intro c heq
        rw [← h2] at heq
        injection heq with h3 h4
        refine ⟨h4.symm, ?_⟩
        rintro ⟨q, hq⟩
        obtain ⟨entr, hmem, _⟩ :=
          exists_entry_of_walk hinv.frontier hinv.start q en hq hen
        exact absurd hmem (List.not_mem_nil entr)
    | cons top rest =>
      obtain ⟨c, n, p⟩ := top
      rw [dijkstraLoop] at h
      by_cases hvis : n ∈ visited
      · rw [if_pos hvis] at h
        refine ih rest visited out ?_ hen h
        constructor
        · intro x hx; exact hinv.entries x (List.mem_cons_of_mem _ hx)
        · exact (List.pairwise_cons.mp hinv.sorted).2
        · rcases hinv.start with hs | hs
          · exact Or.inl hs
          · rcases List.mem_cons.mp hs with hq | hq
            · injection hq with h1 h23
              injection h23 with h2 h3
              exact Or.inl (h2 ▸ hvis)
            · exact Or.inr hq
        · intro x hx y hy hedge
          obtain ⟨entr, hmem, hey, hb⟩ := hinv.frontier x hx y hy hedge
          rcases List.mem_cons.mp hmem with hq | hq
          · exfalso
            rw [hq] at hey
            simp only at hey
            exact hy (hey ▸ hvis)
          · exact ⟨entr, hq, hey, hb⟩
      · rw [if_neg hvis] at h
        have hok : EntryOk g s (c, n, p) := hinv.entries _ (by simp)
        by_cases hne : n = en
        · rw [if_pos hne] at h
          injection h with h2
          subst hne
          constructor
          · intro p2 c2 heq
            rw [← h2] at heq
            injection heq with h3 h4
            injection h3 with h3
            subst h3
            refine ⟨hok.1, ?_, ?_⟩
            · rw [← h4]
              rw [hok.2]
            · intro hnn q hq
              rw [← h4]
              have := pop_min_le hinv hvis hnn q hq
              exact_mod_cast this
          · intro c2 heq
            rw [← h2] at heq
            injection heq with h3 h4
            cases h3
        · rw [if_neg hne] at h
          have hen2 : en ∉ n :: visited := by
            rw [List.mem_cons]
            push_neg
            exact ⟨fun hc => hne hc.symm, hen⟩
          refine ih _ _ out ?_ hen2 h
          constructor
          · intro x hx
            rw [pushFold_mem] at hx
            rcases hx with hx | ⟨nb, hnb, hnbe, hxe⟩
            · exact hinv.entries x (List.mem_cons_of_mem _ hx)
            · subst hxe
              have hedge : g.isEdge n nb = true := mem_neighbors.mp hnb
              refine ⟨?_, ?_⟩
              · exact hok.1.snoc hedge
              · simp only
                rw [walkCost_snoc hok.1.1 hok.1.2.2.1, hok.2]
          · exact pushFold_sorted g c n (p ++ [n]) (n :: visited) _ rest
              (List.pairwise_cons.mp hinv.sorted).2
          · rcases hinv.start with hs | hs
            · exact Or.inl (List.mem_cons_of_mem _ hs)
            · rcases List.mem_cons.mp hs with hq | hq
              · injection hq with h1 h23
                injection h23 with h2 h3
                exact Or.inl (by simp [h2])
              · refine Or.inr ?_
                rw [pushFold_mem]
                exact Or.inl hq
          · intro x hx y hy hedge
            have hynv : y ∉ visited := fun hc => hy (List.mem_cons_of_mem _ hc)
            rcases List.mem_cons.mp hx with hxn | hxold
            · -- boundary edges of the newly settled node: served by the
              -- entries just pushed
              subst hxn
              have hynb : y ∈ g.neighbors x := mem_neighbors.mpr hedge
              refine ⟨(c + g.weight x y, y, p ++ [x]), ?_, rfl, ?_⟩
              · rw [pushFold_mem]
                exact Or.inr ⟨y, hynb, hy, rfl⟩
              · intro hnn q hq
                simp only
                have := pop_min_le hinv hvis hnn q hq
                omega
            · obtain ⟨entr, hmem, hey, hb⟩ := hinv.frontier x hxold y hynv hedge
              rcases List.mem_cons.mp hmem with hq | hq
              · exfalso
                rw [hq] at hey
                simp only at hey
                exact hy (by simp [hey.symm])
              · refine ⟨entr, ?_, hey, hb⟩
                rw [pushFold_mem]
                exact Or.inl hq

theorem dijkstra_spec {g : Graph} {s e fuel : Nat} {out : PyOutcome}
    (h : Dijkstra.shortest_path g s e fuel = some out) : DijOut g s e out := by
  unfold Dijkstra.shortest_path at h
  refine dijkstraLoop_spec fuel _ [] out ?_ (List.not_mem_nil e) h
  constructor
  · intro x hx
    rw [List.mem_singleton] at hx
    subst hx
    exact ⟨by simpa using IsWalk.single g s, by simp [walkCost]⟩
  · simp
  · exact Or.inr (by simp)
  · intro x hx
    exact absurd hx (List.not_mem_nil x)

theorem dijkstra_sound {g : Graph} {s e fuel : Nat} {out : PyOutcome}
    (h : Dijkstra.shortest_path g s e fuel = some out) : ValidOut g s e out := by
  have hd := dijkstra_spec h
  cases out with
  | res po c =>
    cases po with
    | none =>
      show c = ⊤
      exact (hd.2 c rfl).1
    | some pth =>
      obtain ⟨hw, hc, _⟩ := hd.1 pth c rfl
      exact ⟨hw, hc⟩
  | err m => trivial

/-! ## A* (src/src/algorithms/a_star.py) -/

/-- A heap entry `(f_score, g_score, node, path)` as pushed by
`a_star.py`. -/
abbrev Entry4 := Int × Int × Nat × List Nat

/-- Python tuple comparison on 4-tuples. -/
def entry4Le (x y : Entry4) : Bool :=
  if x.1 < y.1 then true
  else if y.1 < x.1 then false
  else entryLe x.2 y.2

/-- The A* heap order. -/
def entry4R (x y : Entry4) : Prop := entry4Le x y = true

instance : DecidableRel entry4R := fun x y => by
  unfold entry4R; infer_instance

instance : IsTotal Entry4 entry4R := by
  constructor
  intro x y
  unfold entry4R entry4Le
  by_cases h1 : x.1 < y.1
  · left; simp [h1]
  · by_cases h2 : y.1 < x.1
    · right; simp [h2]
    · rcases IsTotal.total (r := entryR) x.2 y.2 with h | h
      · left; simp [h1, h2]; exact h
      · right; simp [h1, h2]; exact h

instance : IsTrans Entry4 entry4R := by
  constructor
  intro x y z hxy hyz
  unfold entry4R entry4Le at hxy hyz ⊢
  split_ifs at hxy hyz ⊢ with h1 h2 h3 h4 h5 h6 <;> try omega
  all_goals first
    | rfl
    | (exfalso; omega)
    | (exact Trans.trans (r := entryR) (s := entryR) hxy hyz)

theorem entry4R_fst_le {x y : Entry4} (h : entry4R x y) : x.1 ≤ y.1 := by
  unfold entry4R entry4Le at h
  split_ifs at h with h1 h2 <;> omega

theorem entry4R_fst_eq_snd_le {x y : Entry4} (h : entry4R x y)
    (hx : x.1 = x.2.1) (hy : y.1 = y.2.1) : x.2.1 ≤ y.2.1 := by
  rw [← hx, ← hy]
  exact entry4R_fst_le h

namespace AStar

/-- `a_star.py heuristic`: Euclidean distance when both nodes are
coordinate tuples/lists, else 0.  Node identifiers here are plain
numbers, so the `isinstance` test is false and the heuristic is 0. -/
def heuristic (_a _b : Nat) : Int := 0

end AStar

/-- The inner neighbor loop of A*: relax each remaining neighbor,
reading `g_score[node]` (KeyError if absent), updating `g_score` and
pushing on improvement. -/
def aStarRelax (g : Graph) (en n : Nat) (path : List Nat) (visited2 : List Nat) :
    List Nat → List Entry4 → (Nat → Option Int) →
      Except String (List Entry4 × (Nat → Option Int))
  | [], pq, gs => .ok (pq, gs)
  | nb :: rest, pq, gs =>
    if nb ∈ visited2 then aStarRelax g en n path visited2 rest pq gs
    else
      match gs n with
      | none => .error "KeyError"
      | some gn =>
        if (match gs nb with
            | none => true
            | some gnb => decide (gn + g.weight n nb < gnb)) then
          aStarRelax g en n path visited2 rest
            (List.orderedInsert entry4R
              (gn + g.weight n nb + AStar.heuristic nb en, gn + g.weight n nb, nb, path) pq)
            (updF gs nb (some (gn + g.weight n nb)))
        else aStarRelax g en n path visited2 rest pq gs

/-- The A* main loop (`while open_set:`), with fuel. -/
def aStarLoop (g : Graph) (en : Nat) :
    Nat → List Entry4 → List Nat → (Nat → Option Int) → Option PyOutcome
  | 0, _, _, _ => none
  | _ + 1, [], _, _ => some (.res none ⊤)
  | fuel + 1, (_f, c, n, p) :: rest, visited, gs =>
    if n ∈ visited then aStarLoop g en fuel rest visited gs
    else
      if n = en then some (.res (some (p ++ [n])) (c : WithTop Int))
      else
        match aStarRelax g en n (p ++ [n]) (n :: visited) (g.neighbors n) rest gs with
        | .error m => some (.err m)
        | .ok (pq2, gs2) => aStarLoop g en fuel pq2 (n :: visited) gs2

namespace AStar

/-- `src/src/algorithms/a_star.py shortest_path`. -/
def shortest_path (g : Graph) (s e : Nat) (fuel : Nat) : Option PyOutcome :=
  aStarLoop g e fuel [(0 + heuristic s e, 0, s, [])] []
    (updF (fun _ => none) s (some 0))

end AStar

/-- The A* loop invariant: honest sorted heap (with `f = g` since the
heuristic is 0), and `g_score` bookkeeping: every queued node's score
is a lower bound realised by some queued entry while the node is
unsettled. -/
structure AInv (g : Graph) (s : Nat) (pq : List Entry4) (visited : List Nat)
    (gs : Nat → Option Int) : Prop where
  entries : ∀ x ∈ pq, x.1 = x.2.1 ∧ IsWalk g s x.2.2.1 (x.2.2.2 ++ [x.2.2.1]) ∧
    walkCost g (x.2.2.2 ++ [x.2.2.1]) = x.2.1
  sorted : List.Pairwise entry4R pq
  gsLower : ∀ x ∈ pq, ∃ gx, gs x.2.2.1 = some gx ∧ gx ≤ x.2.1
  gsWitness : ∀ y gy, y ∉ visited → gs y = some gy → ∃ x ∈ pq, x.2.2.1 = y ∧ x.2.1 = gy

theorem aStarRelax_spec {g : Graph} {s en n : Nat} {path : List Nat} {c : Int}
    {visited2 : List Nat}
    (hpw : IsWalk g s n path) (hpc : walkCost g path = c) (hn2 : n ∈ visited2) :
    ∀ (nbs : List Nat) (pq : List Entry4) (gs : Nat → Option Int),
      gs n = some c →
      (∀ nb ∈ nbs, nb ∈ g.neighbors n) →
      AInv g s pq visited2 gs →
      ∀ pq2 gs2, aStarRelax g en n path visited2 nbs pq gs = .ok (pq2, gs2) →
        AInv g s pq2 visited2 gs2 := by
  intro nbs
  induction nbs with
  | nil =>
    intro pq gs _ _ hinv pq2 gs2 h
    injection h with h2
    injection h2 with h3 h4
    subst h3; subst h4
    exact hinv
  | cons nb rest ih =>
    intro pq gs hgn hnbs hinv pq2 gs2 h
    rw [aStarRelax] at h
    by_cases hv2 : nb ∈ visited2
    · rw [if_pos hv2] at h
      exact ih pq gs hgn (fun x hx => hnbs x (by simp [hx])) hinv pq2 gs2 h
    · rw [if_neg hv2] at h
      rw [hgn] at h
      dsimp only at h
      have hnbn : nb ≠ n := fun hc => hv2 (hc ▸ hn2)
      have hnbedge : g.isEdge n nb = true := mem_neighbors.mp (hnbs nb (by simp))
      have hrest : ∀ x ∈ rest, x ∈ g.neighbors n := fun x hx => hnbs x (by simp [hx])
      have hinv2 : (match gs nb with
            | none => true
            | some gnb => decide (c + g.weight n nb < gnb)) = true →
          AInv g s
            (List.orderedInsert entry4R
              (c + g.weight n nb + AStar.heuristic nb en, c + g.weight n nb, nb, path) pq)
            visited2 (updF gs nb (some (c + g.weight n nb))) := by
        intro hbetter
        constructor
        · intro x hx
          rw [List.mem_orderedInsert] at hx
          rcases hx with hx | hx
          · subst hx
            refine ⟨by simp [AStar.heuristic], ?_, ?_⟩
            · exact hpw.snoc hnbedge
            · simp only
              rw [walkCost_snoc hpw.1 hpw.2.2.1, hpc]
          · exact hinv.entries x hx
        · exact List.Sorted.orderedInsert _ _ hinv.sorted
        · intro x hx
          rw [List.mem_orderedInsert] at hx
          rcases hx with hx | hx
          · subst hx
            refine ⟨c + g.weight n nb, ?_, le_refl _⟩
            simp [updF]
          · obtain ⟨gx, hgx, hgxle⟩ := hinv.gsLower x hx
            by_cases hxnb : x.2.2.1 = nb
            · rw [hxnb] at hgx
              rw [hgx] at hbetter
              simp only [decide_eq_true_eq] at hbetter
              refine ⟨c + g.weight n nb, ?_, by omega⟩
              simp [hxnb, updF]
            · refine ⟨gx, ?_, hgxle⟩
              simpa [updF, hxnb] using hgx
        · intro y gy hy hgy
          by_cases hynb : y = nb
          · subst hynb
            simp only [updF, if_pos rfl] at hgy
            injection hgy with hgy2
            refine ⟨(c + g.weight n y + AStar.heuristic y en, c + g.weight n y, y, path),
              ?_, rfl, hgy2⟩
            rw [List.mem_orderedInsert]
            exact Or.inl rfl
          · simp only [updF, if_neg hynb] at hgy
            obtain ⟨x, hxmem, hxy, hxg⟩ := hinv.gsWitness y gy hy hgy
            refine ⟨x, ?_, hxy, hxg⟩
            rw [List.mem_orderedInsert]
            exact Or.inr hxmem
      by_cases hbetter : (match gs nb with
          | none => true
          | some gnb => decide (c + g.weight n nb < gnb)) = true
      · rw [if_pos hbetter] at h
        refine ih _ _ ?_ hrest (hinv2 hbetter) pq2 gs2 h
        simp [updF, Ne.symm hnbn, hgn]
      · rw [if_neg hbetter] at h
        exact ih pq gs hgn hrest hinv pq2 gs2 h

theorem aStarLoop_spec {g : Graph} {s en : Nat} :
    ∀ (fuel : Nat) (pq : List Entry4) (visited : List Nat) (gs : Nat → Option Int)
      (out : PyOutcome),
      AInv g s pq visited gs →
      aStarLoop g en fuel pq visited gs = some out →
      (∀ p c, out = .res (some p) c →
        IsWalk g s en p ∧ c = (walkCost g p : WithTop Int)) ∧
      (∀ c, out = .res none c → c = ⊤) := by
  intro fuel
  induction fuel with
  | zero => intro pq visited gs out _ h; cases h
  | succ m ih =>
    intro pq visited gs out hinv h
    cases pq with
    | nil =>
      rw [aStarLoop] at h
      injection h with h2
      constructor
      · intro p c heq
        rw [← h2] at heq
        cases heq
      · intro c heq
        rw [← h2] at heq
        injection heq with h3 h4
        exact h4.symm
    | cons top rest =>
      obtain ⟨f, c, n, p⟩ := top
      rw [aStarLoop] at h
      by_cases hvis : n ∈ visited
      · rw [if_pos hvis] at h
        refine ih rest visited gs out ?_ h
        constructor
        · intro x hx; exact hinv.entries x (List.mem_cons_of_mem _ hx)
        · exact (List.pairwise_cons.mp hinv.sorted).2
        · intro x hx; exact hinv.gsLower x (List.mem_cons_of_mem _ hx)
        · intro y gy hy hgy
          obtain ⟨x, hxmem, hxy, hxg⟩ := hinv.gsWitness y gy hy hgy
          rcases List.mem_cons.mp hxmem with hq | hq
          · exfalso
            rw [hq] at hxy
            simp only at hxy
            exact hy (hxy ▸ hvis)
          · exact ⟨x, hq, hxy, hxg⟩
      · rw [if_neg hvis] at h
        have hok := hinv.entries (f, c, n, p) (by simp)
        by_cases hne : n = en
        · rw [if_pos hne] at h
          injection h with h2
          subst hne
          constructor
          · intro p2 c2 heq
            rw [← h2] at heq
            injection heq with h3 h4
            injection h3 with h3
            subst h3
            refine ⟨hok.2.1, ?_⟩
            rw [← h4, hok.2.2]
          · intro c2 heq
            rw [← h2] at heq
            injection heq with h3 h4
            cases h3
        · rw [if_neg hne] at h
          -- popped cost equals the recorded g_score of `n`
          obtain ⟨gn, hgn, hgnle⟩ := hinv.gsLower (f, c, n, p) (by simp)
          simp only at hgn hgnle
          obtain ⟨x, hxmem, hxn, hxg⟩ := hinv.gsWitness n gn hvis hgn
          have hcgn : c = gn := by
            rcases List.mem_cons.mp hxmem with hq | hq
            · rw [hq] at hxg
              simp only at hxg
              omega
            · have hrel := (List.pairwise_cons.mp hinv.sorted).1 x hq
              have hfx := (hinv.entries x (List.mem_cons_of_mem _ hq)).1
              have hff := hok.1
              simp only at hff
              have hle := entry4R_fst_le hrel
              simp only at hle
              -- f = c for the head and f = g for x, whose g is gn
              rw [hff] at hle
              rw [hfx] at hle
              omega
          cases hrel : aStarRelax g en n (p ++ [n]) (n :: visited) (g.neighbors n) rest gs with
          | error msg =>
            rw [hrel] at h
            dsimp only at h
            injection h with h2
            constructor
            · intro p2 c2 heq
              rw [← h2] at heq
              cases heq
            · intro c2 heq
              rw [← h2] at heq
              cases heq
          | ok st2 =>
            rw [hrel] at h
            dsimp only at h
            obtain ⟨pq2, gs2⟩ := st2
            have hgnc : gs n = some c := by rw [hgn, hcgn]
            have hinvrest : AInv g s rest (n :: visited) gs := by
              constructor
              · intro x2 hx2; exact hinv.entries x2 (List.mem_cons_of_mem _ hx2)
              · exact (List.pairwise_cons.mp hinv.sorted).2
              · intro x2 hx2; exact hinv.gsLower x2 (List.mem_cons_of_mem _ hx2)
              · intro y gy hy hgy
                have hyv : y ∉ visited := fun hc => hy (List.mem_cons_of_mem _ hc)
                have hyn : y ≠ n := by
                  intro hc
                  exact hy (by simp [hc])
                obtain ⟨x2, hx2mem, hx2y, hx2g⟩ := hinv.gsWitness y gy hyv hgy
                rcases List.mem_cons.mp hx2mem with hq | hq
                · exfalso
                  rw [hq] at hx2y
                  simp only at hx2y
                  exact hyn hx2y.symm
                · exact ⟨x2, hq, hx2y, hx2g⟩
            have hinv2 := aStarRelax_spec hok.2.1 hok.2.2
              (by simp) (g.neighbors n) rest gs hgnc (fun x2 hx2 => hx2) hinvrest pq2 gs2 hrel
            exact ih pq2 (n :: visited) gs2 out hinv2 h

/-! ## Spec-modelled networkx primitives (simple-path enumeration)

`bidirectional_dijkstra.py`, `floyd_warshall.py`, `johnson.py` and
`yen_k_shortest.py` delegate the algorithmic core to networkx, which is
not part of this repository.  Following the specification's contracts
(§4.2, §4.5, §4.6), those primitives are modelled on top of an explicit
enumeration of the simple paths of the graph. -/

/-- All simple paths from `cur` to `e` avoiding the nodes in `avoid`
(which includes `cur` itself), by depth-first search with fuel. -/
def simplePathsAux (g : Graph) (e : Nat) : Nat → List Nat → Nat → List (List Nat)
  | 0, _, _ => []
  | fuel + 1, avoid, cur =>
    if cur = e then [[e]]
    else
      ((g.neighbors cur).filter (fun nb => decide (nb ∉ avoid))).flatMap
        (fun nb => (simplePathsAux g e fuel (nb :: avoid) nb).map (fun p => cur :: p))

/-- All simple paths from `s` to `e` in `g`. -/
def simplePaths (g : Graph) (s e : Nat) : List (List Nat) :=
  simplePathsAux g e (g.nodes.length + 1) [s] s

/-- Modelled from the spec: `nx.shortest_simple_paths` (§4.6) yields the
simple paths from `s` to `e` in non-decreasing cost order. -/
def shortest_simple_paths (g : Graph) (s e : Nat) : List (List Nat) :=
  List.insertionSort (fun p q => walkCost g p ≤ walkCost g q) (simplePaths g s e)

/-- A minimum-cost simple path, when one exists. -/
def minCostPath (g : Graph) (s e : Nat) : Option (List Nat) :=
  (shortest_simple_paths g s e).head?

/-- Modelled from the spec: the negative-cycle detection of the
all-pairs family (§4.5) — a Bellman-Ford sweep from a zero super-source
(all labels start at 0) still finds a relaxable edge after `|V|` full
passes exactly when a negative cycle exists. -/
def johnsonNegCycle (g : Graph) : Bool :=
  bfRelaxable g
    ((List.range g.nodes.length).foldl (fun st2 _ => relaxPass g st2)
      ⟨fun _ => (0 : WithTop Int), fun _ => none⟩)

namespace BidirectionalDijkstra

/-- Modelled from the spec: `nx.bidirectional_dijkstra` (§4.2) returns
a minimum-cost path; `bidirectional_dijkstra.py` recomputes the cost as
the literal edge-weight sum and maps `NetworkXNoPath` to the no-path
sentinel. -/
def shortest_path (g : Graph) (s e : Nat) : PyOutcome :=
  match minCostPath g s e with
  | none => .res none ⊤
  | some p => .res (some p) (walkCost g p : WithTop Int)

end BidirectionalDijkstra

namespace FloydWarshall

/-- Modelled from the spec: `nx.floyd_warshall_predecessor_and_distance`
(§4.5) — the query is answered from the all-pairs matrices: the
reconstructed path is a minimum-cost path and the reported distance is
its cost; unreachable pairs give the sentinel; the negative-cycle
failure of the all-pairs family applies. -/
def shortest_path (g : Graph) (s e : Nat) : PyOutcome :=
  if johnsonNegCycle g then .err "Negative cycle detected"
  else
    match minCostPath g s e with
    | none => .res none ⊤
    | some p => .res (some p) (walkCost g p : WithTop Int)

end FloydWarshall

namespace Johnson

/-- Modelled from the spec: `nx.johnson` (§4.5) — re-weighting via a
super-source Bellman-Ford pass raises the negative-cycle failure, else
the query is answered by a minimum-cost path; `johnson.py` recomputes
the literal cost and maps missing table entries to the sentinel. -/
def shortest_path (g : Graph) (s e : Nat) : PyOutcome :=
  if johnsonNegCycle g then .err "Negative cycle detected"
  else
    match minCostPath g s e with
    | none => .res none ⊤
    | some p => .res (some p) (walkCost g p : WithTop Int)

end Johnson

namespace YenKShortest

/-- The first loop of `yen_k_shortest.py` (lines 18-33): collects up to
`k` `(path, cost)` pairs — computed and then discarded by the function. -/
def paths_with_cost (g : Graph) (s e : Nat) (k : Nat) : List (List Nat × Int) :=
  if s ∈ g.nodes ∧ e ∈ g.nodes then
    ((shortest_simple_paths g s e).take k).map (fun p => (p, walkCost g p))
  else []

/-- `src/src/algorithms/yen_k_shortest.py shortest_path`: the second
loop (lines 44-54), whose bare path list is what the function returns;
`NodeNotFound`/`NetworkXNoPath` yield the empty list. -/
def shortest_path (g : Graph) (s e : Nat) (k : Nat) : List (List Nat) :=
  if s ∈ g.nodes ∧ e ∈ g.nodes then (shortest_simple_paths g s e).take k
  else []

end YenKShortest

theorem IsWalk.cons_of {g : Graph} {x v e : Nat} {p : List Nat}
    (hedge : g.isEdge x v = true) (hw : IsWalk g v e p) (hh : p.head? = some v) :
    IsWalk g x e (x :: p) := by
  cases p with
  | nil => exact absurd rfl hw.1
  | cons a rest =>
    simp only [List.head?_cons] at hh
    injection hh with hh2
    subst hh2
    refine ⟨by simp, by simp, ?_, ?_⟩
    · rw [List.getLast?_cons_cons]
      exact hw.2.2.1
    · rw [List.chain'_cons]
      exact ⟨hedge, hw.2.2.2⟩

theorem neighbors_nodup {g : Graph} (hwf : g.Wf) (u : Nat) : (g.neighbors u).Nodup := by
  unfold Graph.neighbors
  have hedges : g.edges.Nodup := List.Nodup.of_map _ hwf.2.1
  have hfil : (g.edges.filter (fun e => e.1 == u)).Nodup :=
    (List.filter_sublist _).nodup hedges
  have hfilkeys : ((g.edges.filter (fun e => e.1 == u)).map
      (fun e => (e.1, e.2.1))).Nodup :=
    ((List.filter_sublist _).map _).nodup hwf.2.1
  apply List.Nodup.map_on _ hfil
  intro x hx y hy hxy
  have hxu : x.1 = u := by
    have := List.of_mem_filter hx
    simpa using this
  have hyu : y.1 = u := by
    have := List.of_mem_filter hy
    simpa using this
  have hinj := List.inj_on_of_nodup_map hfilkeys
  apply hinj hx hy
  rw [hxu, hyu, hxy]

theorem simplePathsAux_sound {g : Graph} {e : Nat} :
    ∀ (fuel : Nat) (avoid : List Nat) (cur : Nat), cur ∈ avoid →
      ∀ p ∈ simplePathsAux g e fuel avoid cur,
        IsWalk g cur e p ∧ p.Nodup ∧ p.head? = some cur ∧
          (∀ x ∈ p, x ∈ avoid → x = cur) := by
  intro fuel
  induction fuel with
  | zero => intro avoid cur _ p hp; simp [simplePathsAux] at hp
  | succ n ih =>
    intro avoid cur hcur p hp
    rw [simplePathsAux] at hp
    by_cases hce : cur = e
    · rw [if_pos hce] at hp
      rw [List.mem_singleton] at hp
      subst hp
      subst hce
      refine ⟨IsWalk.single g cur, List.nodup_singleton _, by simp, ?_⟩
      intro x hx _
      rw [List.mem_singleton] at hx
      exact hx
    · rw [if_neg hce] at hp
      rw [List.mem_flatMap] at hp
      obtain ⟨nb, hnb, hpnb⟩ := hp
      rw [List.mem_filter] at hnb
      obtain ⟨hnbmem, hnbav⟩ := hnb
      simp only [decide_eq_true_eq] at hnbav
      rw [List.mem_map] at hpnb
      obtain ⟨p2, hp2, hpe⟩ := hpnb
      subst hpe
      obtain ⟨hw2, hnd2, hh2, hav2⟩ := ih (nb :: avoid) nb (by simp) p2 hp2
      have hedge : g.isEdge cur nb = true := mem_neighbors.mp hnbmem
      refine ⟨IsWalk.cons_of hedge hw2 hh2, ?_, by simp, ?_⟩
      · rw [List.nodup_cons]
        refine ⟨?_, hnd2⟩
        intro hcin
        have h3 : cur = nb := hav2 cur hcin (by simp [hcur])
        exact hnbav (h3 ▸ hcur)
      · intro x hx hxav
        rcases List.mem_cons.mp hx with hxc | hxp2
        · exact hxc
        · exfalso
          have h3 : x = nb := hav2 x hxp2 (by simp [hxav])
          exact hnbav (h3 ▸ hxav)

theorem simplePathsAux_complete {g : Graph} {e : Nat} :
    ∀ (fuel : Nat) (avoid : List Nat) (cur : Nat) (p : List Nat),
      IsWalk g cur e p → p.Nodup → p.length ≤ fuel →
      (∀ x ∈ p, x ∈ avoid → x = cur) →
      p ∈ simplePathsAux g e fuel avoid cur := by
  intro fuel
  induction fuel with
  | zero =>
    intro avoid cur p hw _ hlen _
    cases p with
    | nil => exact absurd rfl hw.1
    | cons a rest => simp at hlen
  | succ n ih =>
    intro avoid cur p hw hnd hlen hav
    cases p with
    | nil => exact absurd rfl hw.1
    | cons a rest =>
      have hac : a = cur := hw.head_eq
      subst hac
      cases rest with
      | nil =>
        have hae : a = e := by
          have := hw.2.2.1
          simp at this
          exact this
        rw [simplePathsAux, if_pos hae]
        simp [hae]
      | cons nb rest2 =>
        have hane : a ≠ e := by
          intro hc
          subst hc
          have hlast := hw.2.2.1
          rw [List.getLast?_cons_cons] at hlast
          have hmem : a ∈ nb :: rest2 := List.mem_of_getLast?_eq_some hlast
          exact (List.nodup_cons.mp hnd).1 hmem
        rw [simplePathsAux, if_neg hane]
        rw [List.mem_flatMap]
        obtain ⟨hedge, hw2⟩ := hw.cons_step
        have hnbna : nb ≠ a := by
          intro hc
          subst hc
          exact (List.nodup_cons.mp hnd).1 (by simp)
        have hnbav : nb ∉ avoid := by
          intro hc
          exact hnbna (hav nb (by simp) hc)
        refine ⟨nb, ?_, ?_⟩
        · rw [List.mem_filter]
          exact ⟨mem_neighbors.mpr hedge, by simp [hnbav]⟩
        · rw [List.mem_map]
          refine ⟨nb :: rest2, ?_, rfl⟩
          apply ih (nb :: avoid) nb (nb :: rest2) hw2 (List.nodup_cons.mp hnd).2
          · simp at hlen ⊢
            omega
          · intro x hx hxav
            rcases List.mem_cons.mp hxav with h3 | h3
            · exact h3
            · exfalso
              have := hav x (by simp [hx]) h3
              subst this
              exact (List.nodup_cons.mp hnd).1 hx

/-- A simple path: a walk without repeated nodes. -/
def SimplePath (g : Graph) (s e : Nat) (p : List Nat) : Prop := IsWalk g s e p ∧ p.Nodup

instance (g : Graph) (s e : Nat) (p : List Nat) : Decidable (SimplePath g s e p) := by
  unfold SimplePath; infer_instance

theorem simplePaths_sound {g : Graph} {s e : Nat} {p : List Nat}
    (hp : p ∈ simplePaths g s e) : SimplePath g s e p := by
  obtain ⟨hw, hnd, _, _⟩ := simplePathsAux_sound _ [s] s (by simp) p hp
  exact ⟨hw, hnd⟩

theorem walk_tail_nodes {g : Graph} (hwf : g.Wf) :
    ∀ {p : List Nat} {s e : Nat}, IsWalk g s e p → ∀ x ∈ p.tail, x ∈ g.nodes := by
  intro p
  induction p with
  | nil => intro s e hw; exact absurd rfl hw.1
  | cons a rest ih =>
    intro s e hw x hx
    simp only [List.tail_cons] at hx
    cases rest with
    | nil => cases hx
    | cons b rest2 =>
      obtain ⟨hedge, hw2⟩ := hw.cons_step
      rcases List.mem_cons.mp hx with hxb | hxr
      · subst hxb
        exact (hwf.2.2 _ (isEdge_mem_edges hedge)).2
      · exact ih hw2 x hxr

theorem simplePaths_complete {g : Graph} (hwf : g.Wf) {s e : Nat} {p : List Nat}
    (hsp : SimplePath g s e p) : p ∈ simplePaths g s e := by
  apply simplePathsAux_complete _ [s] s p hsp.1 hsp.2
  · cases hp : p with
    | nil => exact absurd (hp ▸ rfl) hsp.1.1
    | cons a rest =>
      have hsub : rest ⊆ g.nodes := by
        intro x hx
        exact walk_tail_nodes hwf hsp.1 x (by simp [hp, hx])
      have hnd : rest.Nodup := (List.nodup_cons.mp (hp ▸ hsp.2)).2
      have hlen : rest.length ≤ g.nodes.length :=
        (List.Nodup.subperm hnd hsub).length_le
      simp only [List.length_cons, simplePaths]
      omega
  · intro x _ hx
    rw [List.mem_singleton] at hx
    exact hx

theorem simplePathsAux_nodup {g : Graph} {e : Nat} (hwf : g.Wf) :
    ∀ (fuel : Nat) (avoid : List Nat) (cur : Nat), cur ∈ avoid →
      (simplePathsAux g e fuel avoid cur).Nodup := by
  intro fuel
  induction fuel with
  | zero => intro avoid cur _; simp [simplePathsAux]
  | succ n ih =>
    intro avoid cur hcur
    rw [simplePathsAux]
    by_cases hce : cur = e
    · rw [if_pos hce]
      exact List.nodup_singleton _
    · rw [if_neg hce]
      rw [List.nodup_flatMap]
      constructor
      · intro nb hnb
        apply List.Nodup.map
        · intro p1 p2 hp
          injection hp
        · exact ih (nb :: avoid) nb (by simp)
      · have hfilnd : ((g.neighbors cur).filter (fun nb => decide (nb ∉ avoid))).Nodup :=
          (List.filter_sublist _).nodup (neighbors_nodup hwf cur)
        apply hfilnd.pairwise_of_forall_ne
        intro nb1 h1 nb2 h2 hne
        intro p hp1 hp2
        rw [List.mem_map] at hp1 hp2
        obtain ⟨q1, hq1, hqe1⟩ := hp1
        obtain ⟨q2, hq2, hqe2⟩ := hp2
        obtain ⟨_, _, hh1, _⟩ := simplePathsAux_sound n (nb1 :: avoid) nb1 (by simp) q1 hq1
        obtain ⟨_, _, hh2, _⟩ := simplePathsAux_sound n (nb2 :: avoid) nb2 (by simp) q2 hq2
        apply hne
        have hq12 : q1 = q2 := by
          have := hqe1.trans hqe2.symm
          injection this
        rw [hq12] at hh1
        rw [hh1] at hh2
        injection hh2

theorem ssp_sorted (g : Graph) (s e : Nat) :
    List.Sorted (fun p q => walkCost g p ≤ walkCost g q) (shortest_simple_paths g s e) := by
  haveI : IsTotal (List Nat) (fun p q => walkCost g p ≤ walkCost g q) :=
    ⟨fun a b => le_total _ _⟩
  haveI : IsTrans (List Nat) (fun p q => walkCost g p ≤ walkCost g q) :=
    ⟨fun a b c h1 h2 => le_trans h1 h2⟩
  exact List.sorted_insertionSort _ _

theorem ssp_perm (g : Graph) (s e : Nat) :
    (shortest_simple_paths g s e).Perm (simplePaths g s e) :=
  List.perm_insertionSort _ _

theorem not_nodup_decomp : ∀ (l : List Nat), ¬ l.Nodup →
    ∃ a l1 l2 l3, l = l1 ++ a :: (l2 ++ a :: l3) := by
  intro l
  induction l with
  | nil => intro h; exact absurd List.nodup_nil h
  | cons x xs ih =>
    intro h
    rw [List.nodup_cons] at h
    push_neg at h
    by_cases hx : x ∈ xs
    · obtain ⟨l2, l3, hdec⟩ := List.append_of_mem hx
      exact ⟨x, [], l2, l3, by simp [hdec]⟩
    · obtain ⟨a, l1, l2, l3, hdec⟩ := ih (h hx)
      exact ⟨a, x :: l1, l2, l3, by simp [hdec]⟩

theorem walk_to_simple {g : Graph} :
    ∀ (n : Nat) (p : List Nat), p.length ≤ n → ∀ {s e : Nat}, IsWalk g s e p →
      ∃ q, SimplePath g s e q ∧ (Nonneg g → walkCost g q ≤ walkCost g p) := by
  intro n
  induction n with
  | zero =>
    intro p hlen s e hw
    cases p with
    | nil => exact absurd rfl hw.1
    | cons a rest => simp at hlen
  | succ m ih =>
    intro p hlen s e hw
    by_cases hnd : p.Nodup
    · exact ⟨p, ⟨hw, hnd⟩, fun _ => le_refl _⟩
    · obtain ⟨a, l1, l2, l3, hdec⟩ := not_nodup_decomp p hnd
      subst hdec
      obtain ⟨hne, hhd, hlast, hch⟩ := hw
      -- the spliced walk without the cycle between the two occurrences of `a`
      have hch2 : List.Chain' (fun u v => g.isEdge u v = true) (l1 ++ a :: l3) := by
        rw [List.chain'_split] at hch ⊢
        refine ⟨hch.1, ?_⟩
        have hc2 := hch.2
        have hsplit : a :: (l2 ++ a :: l3) = (a :: l2) ++ a :: l3 := by simp
        rw [hsplit, List.chain'_split] at hc2
        exact hc2.2
      have hq : IsWalk g s e (l1 ++ a :: l3) := by
        refine ⟨by simp, ?_, ?_, hch2⟩
        · cases l1 with
          | nil => simpa using hhd
          | cons b bs => simpa using hhd
        · rw [List.getLast?_append] at hlast ⊢
          rw [show (a :: (l2 ++ a :: l3)).getLast? = (a :: l3).getLast? by
            rw [show a :: (l2 ++ a :: l3) = (a :: l2) ++ a :: l3 by simp]
            rw [List.getLast?_append]
            cases hl3 : (a :: l3).getLast? with
            | none => simp at hl3
            | some z => rfl] at hlast
          exact hlast
      have hlen2 : (l1 ++ a :: l3).length ≤ m := by
        simp only [List.length_append, List.length_cons] at hlen ⊢
        omega
      obtain ⟨q, hsq, hcost⟩ := ih (l1 ++ a :: l3) hlen2 hq
      refine ⟨q, hsq, ?_⟩
      intro hnn
      have h1 := hcost hnn
      -- cost of the removed cycle segment is non-negative
      have hmid : 0 ≤ walkCost g ((a :: l2) ++ [a]) := by
        apply walkCost_nonneg hnn
        have hc2 := hch
        rw [List.chain'_split] at hc2
        have hc3 := hc2.2
        rw [show a :: (l2 ++ a :: l3) = (a :: l2) ++ a :: l3 by simp,
          List.chain'_split] at hc3
        exact hc3.1
      have hfull : walkCost g (l1 ++ a :: (l2 ++ a :: l3)) =
          walkCost g (l1 ++ [a]) + walkCost g ((a :: l2) ++ [a]) + walkCost g (a :: l3) := by
        have e1 := walkCost_append g l1 (l2 ++ a :: l3) a
        have e2 := walkCost_append g (a :: l2) l3 a
        have e3 : walkCost g (a :: (l2 ++ a :: l3)) = walkCost g ((a :: l2) ++ a :: l3) := rfl
        rw [e1, e3, e2]
        ring
      have hshort : walkCost g (l1 ++ a :: l3) =
          walkCost g (l1 ++ [a]) + walkCost g (a :: l3) :=
        walkCost_append g l1 l3 a
      rw [hfull]
      rw [hshort] at h1
      omega

theorem minCostPath_simple {g : Graph} {s e : Nat} {p : List Nat}
    (h : minCostPath g s e = some p) : SimplePath g s e p := by
  unfold minCostPath at h
  have hmem : p ∈ shortest_simple_paths g s e := by
    cases hs : shortest_simple_paths g s e with
    | nil => rw [hs] at h; cases h
    | cons a tail =>
      rw [hs] at h
      injection h with h2
      simp [h2.symm]
  exact simplePaths_sound ((ssp_perm g s e).mem_iff.mp hmem)

theorem minCostPath_min {g : Graph} {s e : Nat} {p : List Nat}
    (h : minCostPath g s e = some p) :
    ∀ q ∈ simplePaths g s e, walkCost g p ≤ walkCost g q := by
  intro q hq
  unfold minCostPath at h
  have hsorted := ssp_sorted g s e
  have hqm : q ∈ shortest_simple_paths g s e := (ssp_perm g s e).mem_iff.mpr hq
  cases hs : shortest_simple_paths g s e with
  | nil => rw [hs] at h; cases h
  | cons a tail =>
    rw [hs] at h
    injection h with h2
    subst h2
    rw [hs] at hqm hsorted
    rcases List.mem_cons.mp hqm with hqa | hqt
    · rw [hqa]
    · exact (List.pairwise_cons.mp hsorted).1 q hqt

theorem minCostPath_none {g : Graph} {s e : Nat}
    (h : minCostPath g s e = none) : simplePaths g s e = [] := by
  unfold minCostPath at h
  rw [List.head?_eq_none_iff] at h
  have hperm := (ssp_perm g s e).symm
  rw [h] at hperm
  exact List.Perm.eq_nil hperm

theorem minCostPath_isSome {g : Graph} {s e : Nat} {p : List Nat}
    (h : p ∈ simplePaths g s e) : ∃ q, minCostPath g s e = some q := by
  cases hm : minCostPath g s e with
  | none =>
    rw [minCostPath_none hm] at h
    cases h
  | some q => exact ⟨q, rfl⟩

theorem a_star_sound {g : Graph} {s e fuel : Nat} {out : PyOutcome}
    (h : AStar.shortest_path g s e fuel = some out) : ValidOut g s e out := by
  unfold AStar.shortest_path at h
  have hinv : AInv g s [(0 + AStar.heuristic s e, 0, s, [])] []
      (updF (fun _ => none) s (some 0)) := by
    constructor
    · intro x hx
      rw [List.mem_singleton] at hx
      subst hx
      refine ⟨by simp [AStar.heuristic], by simpa using IsWalk.single g s, by simp [walkCost]⟩
    · simp
    · intro x hx
      rw [List.mem_singleton] at hx
      subst hx
      exact ⟨0, by simp [updF], le_refl _⟩
    · intro y gy _ hgy
      simp only [updF] at hgy
      by_cases hys : y = s
      · subst hys
        rw [if_pos rfl] at hgy
        injection hgy with hgy2
        exact ⟨(0 + AStar.heuristic y e, 0, y, []), by simp, rfl, hgy2⟩
      · rw [if_neg hys] at hgy
        cases hgy
  obtain ⟨h1, h2⟩ := aStarLoop_spec fuel _ [] _ out hinv h
  cases out with
  | res po c =>
    cases po with
    | none =>
      show c = ⊤
      exact h2 c rfl
    | some pth =>
      obtain ⟨hw, hc⟩ := h1 pth c rfl
      exact ⟨hw, hc⟩
  | err m => trivial

theorem bidi_valid (g : Graph) (s e : Nat) :
    ValidOut g s e (BidirectionalDijkstra.shortest_path g s e) := by
  unfold BidirectionalDijkstra.shortest_path
  cases hm : minCostPath g s e with
  | none => rfl
  | some p => exact ⟨(minCostPath_simple hm).1, rfl⟩

theorem floyd_valid (g : Graph) (s e : Nat) :
    ValidOut g s e (FloydWarshall.shortest_path g s e) := by
  unfold FloydWarshall.shortest_path
  by_cases hc : johnsonNegCycle g = true
  · rw [if_pos hc]; trivial
  · rw [if_neg hc]
    cases hm : minCostPath g s e with
    | none => rfl
    | some p => exact ⟨(minCostPath_simple hm).1, rfl⟩

theorem johnson_valid (g : Graph) (s e : Nat) :
    ValidOut g s e (Johnson.shortest_path g s e) := by
  unfold Johnson.shortest_path
  by_cases hc : johnsonNegCycle g = true
  · rw [if_pos hc]; trivial
  · rw [if_neg hc]
    cases hm : minCostPath g s e with
    | none => rfl
    | some p => exact ⟨(minCostPath_simple hm).1, rfl⟩

theorem validOut_no_walk {g : Graph} {s e : Nat} {out : PyOutcome}
    (hv : ValidOut g s e out) (hnw : ¬ ∃ p, IsWalk g s e p) :
    ∀ p c, out = .res p c → p = none ∧ c = ⊤ := by
  intro p c heq
  subst heq
  cases p with
  | none => exact ⟨rfl, hv⟩
  | some q => exact absurd ⟨q, hv.1⟩ hnw

theorem no_walk_of_simplePaths_nil {g : Graph} (hwf : g.Wf) {s e : Nat}
    (h : simplePaths g s e = []) : ¬ ∃ p, IsWalk g s e p := by
  rintro ⟨p, hp⟩
  obtain ⟨q, hsq, _⟩ := walk_to_simple p.length p (le_refl _) hp
  have := simplePaths_complete hwf hsq
  rw [h] at this
  cases this

theorem simplePaths_self (g : Graph) (s : Nat) : simplePaths g s s = [[s]] := by
  unfold simplePaths
  rw [simplePathsAux]
  rw [if_pos rfl]

theorem minCostPath_self (g : Graph) (s : Nat) : minCostPath g s s = some [s] := by
  unfold minCostPath shortest_simple_paths
  rw [simplePaths_self]
  rfl

theorem dijkstra_self (g : Graph) (s : Nat) :
    ∀ fuel out, Dijkstra.shortest_path g s s fuel = some out →
      out = .res (some [s]) 0 := by
  intro fuel out h
  cases fuel with
  | zero => cases h
  | succ m =>
    unfold Dijkstra.shortest_path dijkstraLoop at h
    rw [if_neg (List.not_mem_nil s), if_pos rfl] at h
    injection h with h2
    rw [← h2]
    simp

theorem astar_self (g : Graph) (s : Nat) :
    ∀ fuel out, AStar.shortest_path g s s fuel = some out →
      out = .res (some [s]) 0 := by
  intro fuel out h
  cases fuel with
  | zero => cases h
  | succ m =>
    unfold AStar.shortest_path aStarLoop at h
    rw [if_neg (List.not_mem_nil s), if_pos rfl] at h
    injection h with h2
    rw [← h2]
    simp

theorem bf_self {g : Graph} (hwf : g.Wf) (s : Nat) :
    ∀ fuel p c, BellmanFord.shortest_path g s s fuel = some (.res p c) →
      p = some [s] ∧ c = 0 := by
  intro fuel p c h
  unfold BellmanFord.shortest_path at h
  by_cases hb : bfRelaxable g (bfState g s) = true
  · rw [if_pos hb] at h
    injection h with h2
    cases h2
  · rw [if_neg hb] at h
    have hst : Stable g (bfState g s).d :=
      stable_of_not_relaxable (Bool.eq_false_iff.mpr hb)
    have hinv := bfState_inv hwf s
    obtain ⟨hd0, hpn⟩ := stable_d_start hinv hst
    cases fuel with
    | zero => rw [show chainFrom (bfState g s).pred 0 s = none from rfl] at h; cases h
    | succ m =>
      have hch : chainFrom (bfState g s).pred (m + 1) s = some [s] := by
        rw [chainFrom, hpn]
      rw [hch] at h
      dsimp only at h
      have hne : (bfState g s).d s ≠ ⊤ := by rw [hd0]; exact WithTop.zero_ne_top
      rw [if_neg hne] at h
      injection h with h2
      injection h2 with h3 h4
      refine ⟨h3.symm, ?_⟩
      rw [← h4]
      exact hd0

theorem spfa_self {g : Graph} (hwf : g.Wf) (s : Nat) :
    ∀ fuel cfuel p c, Spfa.shortest_path g s s fuel cfuel = some (.res p c) →
      p = some [s] ∧ c = 0 := by
  intro fuel cfuel p c h
  unfold Spfa.shortest_path at h
  cases hl : spfaLoop g fuel (spfaInit s) with
  | none => rw [hl] at h; cases h
  | some st =>
    rw [hl] at h
    dsimp only at h
    obtain ⟨hinv, hst⟩ := spfa_state_spec hwf hl
    have hd0 : st.d s = 0 := (stable_d_start hinv hst).1
    have hpn : st.pred s = none := (stable_d_start hinv hst).2
    cases cfuel with
    | zero => rw [show chainFrom st.pred 0 s = none from rfl] at h; cases h
    | succ m =>
      have hch : chainFrom st.pred (m + 1) s = some [s] := by
        rw [chainFrom, hpn]
      rw [hch] at h
      dsimp only at h
      have hhd : ([s] : List Nat).head? = some s := rfl
      rw [if_pos hhd] at h
      injection h with h2
      injection h2 with h3 h4
      refine ⟨h3.symm, ?_⟩
      rw [← h4]
      exact hd0

theorem dag_self {g : Graph} (hwf : g.Wf) (s : Nat) :
    ∀ cfuel p c, DagShortestPath.shortest_path g s s cfuel = some (.res p c) →
      p = some [s] ∧ c = 0 := by
  intro cfuel p c h
  unfold DagShortestPath.shortest_path at h
  cases hts : topoSort g with
  | none =>
    rw [hts] at h
    injection h with h2
    cases h2
  | some ts =>
    rw [hts] at h
    dsimp only at h
    obtain ⟨hperm, htf, hnodup⟩ := topoSort_spec hwf hts
    have hinv := dagState_inv hwf s ts
    have hst : Stable g (dagState g s ts).d :=
      dagState_stable hwf s htf hnodup
        (fun e2 he2 => hperm.mem_iff.mpr (hwf.2.2 e2 he2).1)
    have hd0 : (dagState g s ts).d s = 0 := (stable_d_start hinv hst).1
    have hpn : (dagState g s ts).pred s = none := (stable_d_start hinv hst).2
    by_cases hs0 : s = 0
    · subst hs0
      rw [show chainTruthy (dagState g 0 ts).pred cfuel (some 0) = some [] from
        by cases cfuel <;> rfl] at h
      dsimp only at h
      injection h with h2
      cases h2
    · obtain ⟨k, hk⟩ := Nat.exists_eq_succ_of_ne_zero hs0
      subst hk
      cases cfuel with
      | zero => rw [show chainTruthy (dagState g (k+1) ts).pred 0 (some (k+1)) = none
          from rfl] at h; cases h
      | succ m =>
        have hch : chainTruthy (dagState g (k+1) ts).pred (m + 1) (some (k + 1)) =
            some [k + 1] := by
          show (chainTruthy (dagState g (k+1) ts).pred m
            ((dagState g (k+1) ts).pred (k+1))).map (fun l => l ++ [k + 1]) = _
          rw [hpn, chainTruthy_none]
          rfl
        rw [hch] at h
        dsimp only at h
        rw [show ([k+1] : List Nat).head? = some (k+1) from rfl] at h
        dsimp only at h
        rw [if_pos rfl] at h
        injection h with h2
        injection h2 with h3 h4
        refine ⟨h3.symm, ?_⟩
        rw [← h4]
        exact hd0

theorem bidi_self (g : Graph) (s : Nat) :
    ∀ p c, BidirectionalDijkstra.shortest_path g s s = .res p c →
      p = some [s] ∧ c = 0 := by
  intro p c h
  unfold BidirectionalDijkstra.shortest_path at h
  rw [minCostPath_self] at h
  dsimp only at h
  injection h with h3 h4
  exact ⟨h3.symm, h4.symm⟩

theorem floyd_self (g : Graph) (s : Nat) :
    ∀ p c, FloydWarshall.shortest_path g s s = .res p c →
      p = some [s] ∧ c = 0 := by
  intro p c h
  unfold FloydWarshall.shortest_path at h
  by_cases hc : johnsonNegCycle g = true
  · rw [if_pos hc] at h; cases h
  · rw [if_neg hc, minCostPath_self] at h
    dsimp only at h
    injection h with h3 h4
    exact ⟨h3.symm, h4.symm⟩

theorem johnson_self (g : Graph) (s : Nat) :
    ∀ p c, Johnson.shortest_path g s s = .res p c →
      p = some [s] ∧ c = 0 := by
  intro p c h
  unfold Johnson.shortest_path at h
  by_cases hc : johnsonNegCycle g = true
  · rw [if_pos hc] at h; cases h
  · rw [if_neg hc, minCostPath_self] at h
    dsimp only at h
    injection h with h3 h4
    exact ⟨h3.symm, h4.symm⟩

/-! ## Concrete graphs and harness adapters -/

/-- `create_disconnected_graph`: the undirected two-component graph with
components {A, B} and {C, D} (as 1, 2, 3, 4; `nx.Graph` default weight 1),
encoded with both orientations of each undirected edge. -/
def gDisc : Graph := ⟨[1, 2, 3, 4], [(1, 2, 1), (2, 1, 1), (3, 4, 1), (4, 3, 1)]⟩

/-- `create_simple_weighted_graph` with A..E as 1..5. -/
def gSimple : Graph :=
  ⟨[1, 2, 3, 4, 5], [(1, 2, 1), (1, 3, 4), (2, 3, 2), (2, 4, 5), (3, 4, 1), (4, 5, 3)]⟩

/-- A two-node graph with a negative-weight cycle. -/
def gNegCycle : Graph := ⟨[1, 2], [(1, 2, -1), (2, 1, -1)]⟩

/-- A DAG whose start node is the falsy identifier `0`. -/
def gZero : Graph := ⟨[0, 1], [(0, 1, 5)]⟩

/-- A DAG whose end node is the falsy identifier `0`, distinct from start. -/
def gEndZero : Graph := ⟨[1, 0], [(1, 0, 3)]⟩

/-- The one-node graph on the falsy identifier `0`. -/
def gZeroSelf : Graph := ⟨[0], []⟩

/-- A three-node graph with exactly two simple paths from 1 to 2. -/
def gTwoPaths : Graph := ⟨[1, 2, 3], [(1, 2, 1), (1, 3, 1), (3, 2, 1)]⟩

/-- `dijkstra.shortest_path` as a harness algorithm.  The fuel only needs
to exceed the loop's iteration count for the graph at hand; the final
branch is unreachable then. -/
def dijkstraAlg (fuel : Nat) : AlgFun := fun g s e =>
  match Dijkstra.shortest_path g s e fuel with
  | some (.res p c) => .ok (p, c)
  | some (.err m) => .error m
  | none => .error "fuel exhausted"

/-- An algorithm that always raises. -/
def boomAlg : AlgFun := fun _ _ _ => .error "division by zero"

theorem recordFor_algorithm (g : Graph) (s e : Nat) (nf : String × AlgFun) :
    (recordFor g s e nf).algorithm = nf.1 := by
  unfold recordFor
  cases nf.2 g s e <;> rfl

theorem recordFor_error {g : Graph} {s e : Nat} {nf : String × AlgFun} {msg : String}
    (h : nf.2 g s e = .error msg) : recordFor g s e nf = failMetrics nf.1 msg := by
  unfold recordFor
  rw [h]

theorem recordFor_ok {g : Graph} {s e : Nat} {nf : String × AlgFun}
    {r : Option (List Nat) × WithTop Int}
    (h : nf.2 g s e = .ok r) : recordFor g s e nf = mkMetrics nf.1 r := by
  unfold recordFor
  rw [h]

/-! ## The claims -/

/-- C1: the claim reads `success` as "the call returned a non-absent path".
In the code (`benchmark.py` line 72) `success` is `result is not None`
where `result` is the `(path, cost)` tuple the algorithm returned — a
tuple is never `None`, so `success` is `true` on every normal return.  On
the disconnected graph, Dijkstra returns the no-path sentinel
`(None, inf)`, yet its metrics record carries `success = true` with
`path_cost = ⊤`: the recorded flag does not track path presence. -/
theorem claim_C1_success_flag_is_constant_true :
    Dijkstra.shortest_path gDisc 1 4 20 = some (.res none ⊤) ∧
    run_benchmark [("dijkstra", dijkstraAlg 20)] gDisc 1 4 [] =
      [⟨"dijkstra", 0, ⊤, true, none⟩] := by
  exact ⟨rfl, rfl⟩

/-- C2: if an algorithm of the mapping raises, `run_benchmark` catches the
error and appends for it a record with `success = false`, infinite cost
and the error message; and every algorithm of the mapping gets a record
in the returned batch — a raise or a normal return, the batch covers it
either way. -/
theorem claim_C2_failure_isolation (algs : List (String × AlgFun)) (g : Graph)
    (s e : Nat) (st : List Metrics) (name : String) (f : AlgFun)
    (hmem : (name, f) ∈ algs) :
    ∃ m ∈ run_benchmark algs g s e st,
      m.algorithm = name ∧
      (∀ msg, f g s e = .error msg →
        m.success = false ∧ m.path_cost = ⊤ ∧ m.error = some msg) ∧
      (∀ r, f g s e = .ok r → m = mkMetrics name r) := by
  refine ⟨recordFor g s e (name, f), ?_, recordFor_algorithm g s e (name, f), ?_, ?_⟩
  · rw [run_benchmark_eq]
    exact List.mem_append_right _ (List.mem_map_of_mem _ hmem)
  · intro msg hmsg
    rw [recordFor_error hmsg]
    exact ⟨rfl, rfl, rfl⟩
  · intro r hr
    exact recordFor_ok hr

/-- Witness for C2: a mapping of a raising algorithm and Dijkstra on the
simple weighted graph. -/
theorem claim_C2_failure_isolation_witness :
    ∃ m ∈ run_benchmark [("boom", boomAlg), ("dijkstra", dijkstraAlg 20)] gSimple 1 5 [],
      m.algorithm = "boom" ∧
      (∀ msg, boomAlg gSimple 1 5 = .error msg →
        m.success = false ∧ m.path_cost = ⊤ ∧ m.error = some msg) ∧
      (∀ r, boomAlg gSimple 1 5 = .ok r → m = mkMetrics "boom" r) :=
  claim_C2_failure_isolation [("boom", boomAlg), ("dijkstra", dijkstraAlg 20)]
    gSimple 1 5 [] "boom" boomAlg (List.mem_cons_self _ _)

/-- C9 counterexample: two sequential `run_benchmark` calls on the same
harness instance; the batch returned by the second call still contains
the first call's record (`self.results` is never cleared and the whole
accumulated list is returned). -/
theorem claim_C9_counterexample :
    (run_benchmark [("second", dijkstraAlg 20)] gDisc 3 4
        (run_benchmark [("first", dijkstraAlg 20)] gDisc 1 2 [])).map
      Metrics.algorithm = ["first", "second"] := by
  rfl

/-- C9 (amended): the batch returned by a `run_benchmark` call is the
harness instance's accumulated record list — every record from earlier
calls on the same instance, followed by exactly one fresh record per
algorithm named in this call's mapping, in mapping order. -/
theorem claim_C9_batch_accumulates (algs : List (String × AlgFun)) (g : Graph)
    (s e : Nat) (st : List Metrics) :
    run_benchmark algs g s e st = st ++ algs.map (recordFor g s e) ∧
    (run_benchmark algs g s e st).map Metrics.algorithm =
      st.map Metrics.algorithm ++ algs.map Prod.fst := by
  refine ⟨run_benchmark_eq algs g s e st, ?_⟩
  rw [run_benchmark_eq, List.map_append, List.map_map]
  congr 1
  apply List.map_congr_left
  intro nf _
  exact recordFor_algorithm g s e nf

/-- C4: Bellman-Ford relaxes every edge for `|V| - 1` unconditional full
rounds (`bfState` is the `(len(graph.nodes) - 1)`-fold iterate of a full
edge pass), then performs one extra full pass: the call raises
`ValueError("Graph contains a negative-weight cycle")` — the code's
NegativeCycleError — exactly when some edge still relaxes after the
rounds, and a raising call returns no result. -/
theorem claim_C4_bf_negative_cycle (g : Graph) (s e fuel : Nat) :
    bfState g s = (relaxPass g)^[g.nodes.length - 1] (rInit s) ∧
    ((∃ msg, BellmanFord.shortest_path g s e fuel = some (.err msg)) ↔
      ∃ ed ∈ g.edges,
        ((relaxPass g)^[g.nodes.length - 1] (rInit s)).d ed.1 + (ed.2.2 : WithTop Int) <
          ((relaxPass g)^[g.nodes.length - 1] (rInit s)).d ed.2.1) ∧
    (∀ msg p c, BellmanFord.shortest_path g s e fuel = some (.err msg) →
      BellmanFord.shortest_path g s e fuel ≠ some (.res p c)) := by
  refine ⟨bfState_eq_iterate g s, ?_, ?_⟩
  · rw [bf_err_iff]
    unfold bfRelaxable
    rw [List.any_eq_true]
    rw [← bfState_eq_iterate]
    constructor
    · rintro ⟨ed, hmem, hdec⟩
      exact ⟨ed, hmem, of_decide_eq_true hdec⟩
    · rintro ⟨ed, hmem, hlt⟩
      exact ⟨ed, hmem, decide_eq_true hlt⟩
  · intro msg p c herr hres
    rw [herr] at hres
    injection hres with h2
    cases h2

/-- C10: the DAG algorithm's reconstruction loop `while current:` tests
Python truthiness, so it stops at the falsy node identifier `0` as well
as at `None`.  On the DAG 1 →(3) 0 queried (1, 0), the rebuilt path is
empty and `path[0]` raises an IndexError; on the DAG 0 →(5) 1 queried
(0, 1), the loop stops before prepending the start node, the head test
fails, and the call returns an absent path paired with the finite cost 5. -/
theorem claim_C10_truthy_chain_stops_at_zero :
    DagShortestPath.shortest_path gEndZero 1 0 10 =
      some (.err "IndexError: list index out of range") ∧
    DagShortestPath.shortest_path gZero 0 1 10 =
      some (.res none ((5 : Int) : WithTop Int)) ∧
    ((5 : Int) : WithTop Int) ≠ ⊤ := by
  exact ⟨rfl, rfl, by decide⟩

/-- C3 counterexample: on the DAG 0 →(5) 1 whose start node is the falsy
identifier 0, the DAG algorithm returns normally with an absent path
paired with the finite cost 5 — neither branch of the claimed dichotomy. -/
theorem claim_C3_counterexample :
    DagShortestPath.shortest_path gZero 0 1 10 =
      some (.res none ((5 : Int) : WithTop Int)) ∧
    ¬ ValidOut gZero 0 1 (.res none ((5 : Int) : WithTop Int)) := by
  exact ⟨rfl, by decide⟩

/-- C3 (amended): for every well-formed graph and query, whenever an
algorithm returns without raising, the result is exactly a valid path
(a walk from start to end along the graph's edges whose cost is the
literal sum of traversed edge weights) paired with that cost, or an
absent path paired with an infinite cost — unconditionally for Dijkstra,
A*, Bellman-Ford, SPFA, Bidirectional Dijkstra, Floyd-Warshall and
Johnson, and for the DAG algorithm on graphs with the end node in the
node set and no falsy (0) node identifier. -/
theorem claim_C3_result_dichotomy (g : Graph) (s e : Nat) (hwf : g.Wf) :
    (∀ fuel out, Dijkstra.shortest_path g s e fuel = some out → ValidOut g s e out) ∧
    (∀ fuel out, AStar.shortest_path g s e fuel = some out → ValidOut g s e out) ∧
    (∀ fuel out, BellmanFord.shortest_path g s e fuel = some out → ValidOut g s e out) ∧
    (∀ fuel cfuel out, Spfa.shortest_path g s e fuel cfuel = some out →
      ValidOut g s e out) ∧
    (0 ∉ g.nodes → e ∈ g.nodes → ∀ cfuel out,
      DagShortestPath.shortest_path g s e cfuel = some out → ValidOut g s e out) ∧
    ValidOut g s e (BidirectionalDijkstra.shortest_path g s e) ∧
    ValidOut g s e (FloydWarshall.shortest_path g s e) ∧
    ValidOut g s e (Johnson.shortest_path g s e) :=
  ⟨fun _ _ h => dijkstra_sound h,
    fun _ _ h => a_star_sound h,
    fun _ _ h => bf_sound hwf h,
    fun _ _ _ h => spfa_sound hwf h,
    fun hz he _ _ h => dag_sound hwf hz he h,
    bidi_valid g s e, floyd_valid g s e, johnson_valid g s e⟩

/-- Witness for C3: the simple weighted graph A..E (as 1..5), query (A, E). -/
theorem claim_C3_result_dichotomy_witness :
    (∀ fuel out, Dijkstra.shortest_path gSimple 1 5 fuel = some out →
      ValidOut gSimple 1 5 out) ∧
    (∀ fuel out, AStar.shortest_path gSimple 1 5 fuel = some out →
      ValidOut gSimple 1 5 out) ∧
    (∀ fuel out, BellmanFord.shortest_path gSimple 1 5 fuel = some out →
      ValidOut gSimple 1 5 out) ∧
    (∀ fuel cfuel out, Spfa.shortest_path gSimple 1 5 fuel cfuel = some out →
      ValidOut gSimple 1 5 out) ∧
    (0 ∉ gSimple.nodes → 5 ∈ gSimple.nodes → ∀ cfuel out,
      DagShortestPath.shortest_path gSimple 1 5 cfuel = some out →
      ValidOut gSimple 1 5 out) ∧
    ValidOut gSimple 1 5 (BidirectionalDijkstra.shortest_path gSimple 1 5) ∧
    ValidOut gSimple 1 5 (FloydWarshall.shortest_path gSimple 1 5) ∧
    ValidOut gSimple 1 5 (Johnson.shortest_path gSimple 1 5) :=
  claim_C3_result_dichotomy gSimple 1 5 (by decide)

/-- C8 counterexample: the one-node graph on the falsy identifier 0 with
start = end = 0: the DAG algorithm's reconstruction loop stops
immediately, the rebuilt path is empty, and `path[0]` raises an
IndexError instead of returning ([0], 0). -/
theorem claim_C8_counterexample :
    gZeroSelf.Wf ∧ 0 ∈ gZeroSelf.nodes ∧
    DagShortestPath.shortest_path gZeroSelf 0 0 10 =
      some (.err "IndexError: list index out of range") := by
  exact ⟨by decide, by decide, rfl⟩

/-- C8 (amended): for every well-formed graph and node s, each algorithm
queried with start = end = s returns the single-node path [s] paired with
cost 0 whenever it returns a (non-raising) result — the DAG algorithm can
instead raise an IndexError when s is the falsy identifier 0. -/
theorem claim_C8_self_query (g : Graph) (s : Nat) (hwf : g.Wf) :
    (∀ fuel out, Dijkstra.shortest_path g s s fuel = some out →
      out = .res (some [s]) 0) ∧
    (∀ fuel out, AStar.shortest_path g s s fuel = some out →
      out = .res (some [s]) 0) ∧
    (∀ fuel p c, BellmanFord.shortest_path g s s fuel = some (.res p c) →
      p = some [s] ∧ c = 0) ∧
    (∀ fuel cfuel p c, Spfa.shortest_path g s s fuel cfuel = some (.res p c) →
      p = some [s] ∧ c = 0) ∧
    (∀ cfuel p c, DagShortestPath.shortest_path g s s cfuel = some (.res p c) →
      p = some [s] ∧ c = 0) ∧
    (∀ p c, BidirectionalDijkstra.shortest_path g s s = .res p c →
      p = some [s] ∧ c = 0) ∧
    (∀ p c, FloydWarshall.shortest_path g s s = .res p c → p = some [s] ∧ c = 0) ∧
    (∀ p c, Johnson.shortest_path g s s = .res p c → p = some [s] ∧ c = 0) :=
  ⟨dijkstra_self g s, astar_self g s, bf_self hwf s, spfa_self hwf s,
    dag_self hwf s, bidi_self g s, floyd_self g s, johnson_self g s⟩

/-- Witness for C8: the simple weighted graph, start = end = C (as 3). -/
theorem claim_C8_self_query_witness :
    (∀ fuel out, Dijkstra.shortest_path gSimple 3 3 fuel = some out →
      out = .res (some [3]) 0) ∧
    (∀ fuel out, AStar.shortest_path gSimple 3 3 fuel = some out →
      out = .res (some [3]) 0) ∧
    (∀ fuel p c, BellmanFord.shortest_path gSimple 3 3 fuel = some (.res p c) →
      p = some [3] ∧ c = 0) ∧
    (∀ fuel cfuel p c, Spfa.shortest_path gSimple 3 3 fuel cfuel = some (.res p c) →
      p = some [3] ∧ c = 0) ∧
    (∀ cfuel p c, DagShortestPath.shortest_path gSimple 3 3 cfuel = some (.res p c) →
      p = some [3] ∧ c = 0) ∧
    (∀ p c, BidirectionalDijkstra.shortest_path gSimple 3 3 = .res p c →
      p = some [3] ∧ c = 0) ∧
    (∀ p c, FloydWarshall.shortest_path gSimple 3 3 = .res p c →
      p = some [3] ∧ c = 0) ∧
    (∀ p c, Johnson.shortest_path gSimple 3 3 = .res p c → p = some [3] ∧ c = 0) :=
  claim_C8_self_query gSimple 3 (by decide)

/-- C6 counterexample: the disconnected two-component graph {A,B} | {C,D}
has no walk from A=1 to D=4, but the DAG algorithm does not return the
sentinel for (A, D): the undirected (hence cyclic as a digraph) graph
fails the acyclicity check and the call raises
`ValueError("Graph is not a DAG")`. -/
theorem claim_C6_counterexample :
    (¬ ∃ p, IsWalk gDisc 1 4 p) ∧
    DagShortestPath.shortest_path gDisc 1 4 10 = some (.err "Graph is not a DAG") := by
  exact ⟨no_walk_of_simplePaths_nil (by decide) rfl, rfl⟩

/-- C6 (amended): on every well-formed graph and query with no walk from
start to end, each of Dijkstra, A*, Bellman-Ford, SPFA, Bidirectional
Dijkstra, Floyd-Warshall and Johnson returns the sentinel (absent path,
infinite cost) whenever it returns a result; the DAG algorithm is the
exception — on the disconnected two-component graph it raises the
not-a-DAG error instead.  Concretely, the seven return the sentinel for
(A, D) = (1, 4) on that graph. -/
theorem claim_C6_no_path_sentinel (g : Graph) (s e : Nat) (hwf : g.Wf)
    (hnw : ¬ ∃ p, IsWalk g s e p) :
    ((∀ fuel p c, Dijkstra.shortest_path g s e fuel = some (.res p c) →
        p = none ∧ c = ⊤) ∧
      (∀ fuel p c, AStar.shortest_path g s e fuel = some (.res p c) →
        p = none ∧ c = ⊤) ∧
      (∀ fuel p c, BellmanFord.shortest_path g s e fuel = some (.res p c) →
        p = none ∧ c = ⊤) ∧
      (∀ fuel cfuel p c, Spfa.shortest_path g s e fuel cfuel = some (.res p c) →
        p = none ∧ c = ⊤) ∧
      (∀ p c, BidirectionalDijkstra.shortest_path g s e = .res p c →
        p = none ∧ c = ⊤) ∧
      (∀ p c, FloydWarshall.shortest_path g s e = .res p c → p = none ∧ c = ⊤) ∧
      (∀ p c, Johnson.shortest_path g s e = .res p c → p = none ∧ c = ⊤)) ∧
    (Dijkstra.shortest_path gDisc 1 4 20 = some (.res none ⊤) ∧
      AStar.shortest_path gDisc 1 4 20 = some (.res none ⊤) ∧
      BellmanFord.shortest_path gDisc 1 4 10 = some (.res none ⊤) ∧
      Spfa.shortest_path gDisc 1 4 20 10 = some (.res none ⊤) ∧
      BidirectionalDijkstra.shortest_path gDisc 1 4 = .res none ⊤ ∧
      FloydWarshall.shortest_path gDisc 1 4 = .res none ⊤ ∧
      Johnson.shortest_path gDisc 1 4 = .res none ⊤) := by
  constructor
  · refine ⟨?_, ?_, ?_, ?_, ?_, ?_, ?_⟩
    · intro fuel p c h
      exact validOut_no_walk (dijkstra_sound h) hnw p c rfl
    · intro fuel p c h
      exact validOut_no_walk (a_star_sound h) hnw p c rfl
    · intro fuel p c h
      exact validOut_no_walk (bf_sound hwf h) hnw p c rfl
    · intro fuel cfuel p c h
      exact validOut_no_walk (spfa_sound hwf h) hnw p c rfl
    · intro p c h
      exact validOut_no_walk (bidi_valid g s e) hnw p c h
    · intro p c h
      exact validOut_no_walk (floyd_valid g s e) hnw p c h
    · intro p c h
      exact validOut_no_walk (johnson_valid g s e) hnw p c h
  · exact ⟨rfl, rfl, rfl, rfl, rfl, rfl, rfl⟩

/-- Witness for C6: the disconnected graph, query (A, D) = (1, 4). -/
theorem claim_C6_no_path_sentinel_witness :
    Dijkstra.shortest_path gDisc 1 4 20 = some (.res none ⊤) ∧
    BidirectionalDijkstra.shortest_path gDisc 1 4 = .res none ⊤ :=
  ⟨(claim_C6_no_path_sentinel gDisc 1 4 (by decide)
      (no_walk_of_simplePaths_nil (by decide) rfl)).2.1,
    (claim_C6_no_path_sentinel gDisc 1 4 (by decide)
      (no_walk_of_simplePaths_nil (by decide) rfl)).2.2.2.2.2.1⟩

/-- C5 counterexample: Yen's `shortest_path` on the three-node graph with
two simple paths from 1 to 2 (k = 3) returns the bare path list — not a
sequence of (path, cost) pairs; the pair list the claim (and the
docstring) describe is the one the function's dead first loop computes
and discards. -/
theorem claim_C5_counterexample :
    YenKShortest.shortest_path gTwoPaths 1 2 3 = [[1, 2], [1, 3, 2]] ∧
    YenKShortest.paths_with_cost gTwoPaths 1 2 3 = [([1, 2], 1), ([1, 3, 2], 2)] := by
  exact ⟨rfl, rfl⟩

/-- C5 (amended): for every well-formed graph, query with both endpoints
in the node set, and k, Yen's `shortest_path` returns a list of BARE
paths (the (path, cost) pairs of the first loop are discarded) containing
exactly min(k, number of distinct simple paths) entries, each a valid
simple path, with costs in non-decreasing order and no duplicates; fewer
than k entries is a normal return, not an error. -/
theorem claim_C5_yen_bare_paths (g : Graph) (s e k : Nat) (hwf : g.Wf)
    (hs : s ∈ g.nodes) (he : e ∈ g.nodes) :
    (YenKShortest.shortest_path g s e k).length = min k (simplePaths g s e).length ∧
    (∀ p ∈ YenKShortest.shortest_path g s e k, SimplePath g s e p) ∧
    (YenKShortest.shortest_path g s e k).Pairwise
      (fun p q => walkCost g p ≤ walkCost g q) ∧
    (YenKShortest.shortest_path g s e k).Nodup ∧
    YenKShortest.paths_with_cost g s e k =
      (YenKShortest.shortest_path g s e k).map (fun p => (p, walkCost g p)) ∧
    (∀ p, p ∈ simplePaths g s e ↔ SimplePath g s e p) := by
  unfold YenKShortest.shortest_path YenKShortest.paths_with_cost
  rw [if_pos ⟨hs, he⟩, if_pos ⟨hs, he⟩]
  have hperm := ssp_perm g s e
  have hsorted := ssp_sorted g s e
  have hnodup : (shortest_simple_paths g s e).Nodup :=
    hperm.nodup_iff.mpr (simplePathsAux_nodup hwf _ [s] s (by simp))
  refine ⟨?_, ?_, ?_, ?_, rfl, ?_⟩
  · rw [List.length_take, hperm.length_eq]
  · intro p hp
    exact simplePaths_sound (hperm.mem_iff.mp (List.mem_of_mem_take hp))
  · exact hsorted.sublist (List.take_sublist k _)
  · exact hnodup.sublist (List.take_sublist k _)
  · intro p
    exact ⟨fun hp => simplePaths_sound hp, fun hp => simplePaths_complete hwf hp⟩

/-- Witness for C5: the two-simple-path graph, query (1, 2), k = 3. -/
theorem claim_C5_yen_bare_paths_witness :
    (YenKShortest.shortest_path gTwoPaths 1 2 3).length =
      min 3 (simplePaths gTwoPaths 1 2).length ∧
    (∀ p ∈ YenKShortest.shortest_path gTwoPaths 1 2 3, SimplePath gTwoPaths 1 2 p) ∧
    (YenKShortest.shortest_path gTwoPaths 1 2 3).Pairwise
      (fun p q => walkCost gTwoPaths p ≤ walkCost gTwoPaths q) ∧
    (YenKShortest.shortest_path gTwoPaths 1 2 3).Nodup ∧
    YenKShortest.paths_with_cost gTwoPaths 1 2 3 =
      (YenKShortest.shortest_path gTwoPaths 1 2 3).map
        (fun p => (p, walkCost gTwoPaths p)) ∧
    (∀ p, p ∈ simplePaths gTwoPaths 1 2 ↔ SimplePath gTwoPaths 1 2 p) :=
  claim_C5_yen_bare_paths gTwoPaths 1 2 3 (by decide) (by decide) (by decide)

/-- Cost agreement when every algorithm sees the same edge relation —
i.e. on directed inputs, where adjacency and `graph.edges(data=True)`
enumerate the same arcs.  (1) If SPFA's work queue empties (the loop
returns) and Bellman-Ford returns a result on the same graph — no
negative cycle fired its check — then SPFA's final distance labelling
equals Bellman-Ford's everywhere, and in particular the cost SPFA
reports for the query equals Bellman-Ford's.  (2) On a graph with
non-negative weights, the cost Dijkstra reports equals the cost of the
bidirectional model (a minimum-cost simple path, or the sentinel).  The
bidirectional side is modelled from the spec:
`nx.bidirectional_dijkstra` returns a minimum-cost path.  On undirected
inputs part (1) fails in the source, because Bellman-Ford sweeps only
the stored orientation of each edge: see the divergence theorem below. -/
theorem directed_cost_agreement (g : Graph) (s e : Nat) (hwf : g.Wf) :
    (∀ (fuel cfuel bfuel : Nat) (st : SpfaState) (p2 : Option (List Nat))
      (c2 : WithTop Int),
      spfaLoop g fuel (spfaInit s) = some st →
      BellmanFord.shortest_path g s e bfuel = some (.res p2 c2) →
      (∀ v, st.d v = (bfState g s).d v) ∧
      (∀ p1 c1, Spfa.shortest_path g s e fuel cfuel = some (.res p1 c1) → c1 = c2)) ∧
    (Nonneg g →
      ∀ (fuel : Nat) (p1 : Option (List Nat)) (c1 : WithTop Int)
        (p2 : Option (List Nat)) (c2 : WithTop Int),
        Dijkstra.shortest_path g s e fuel = some (.res p1 c1) →
        BidirectionalDijkstra.shortest_path g s e = .res p2 c2 →
        c1 = c2) := by
  constructor
  · intro fuel cfuel bfuel st p2 c2 hsp hbf
    have hb : ¬ bfRelaxable g (bfState g s) = true := by
      intro hb
      obtain ⟨msg, hmsg⟩ := (bf_err_iff g s e bfuel).mpr hb
      rw [hmsg] at hbf
      injection hbf with h2
      cases h2
    have hstb : Stable g (bfState g s).d :=
      stable_of_not_relaxable (Bool.eq_false_iff.mpr hb)
    have hinvb := bfState_inv hwf s
    obtain ⟨hinvs, hsts⟩ := spfa_state_spec hwf hsp
    have heq : ∀ v, st.d v = (bfState g s).d v :=
      stable_achiev_eq hinvs hsts hinvb hstb
    refine ⟨heq, ?_⟩
    intro p1 c1 hspfa
    unfold Spfa.shortest_path at hspfa
    rw [hsp] at hspfa
    dsimp only at hspfa
    cases hc : chainFrom st.pred cfuel e with
    | none => rw [hc] at hspfa; cases hspfa
    | some path =>
      rw [hc] at hspfa
      dsimp only at hspfa
      injection hspfa with h2
      injection h2 with h3 h4
      unfold BellmanFord.shortest_path at hbf
      rw [if_neg hb] at hbf
      cases hc2 : chainFrom (bfState g s).pred bfuel e with
      | none => rw [hc2] at hbf; cases hbf
      | some path2 =>
        rw [hc2] at hbf
        dsimp only at hbf
        by_cases hde : (bfState g s).d e = ⊤
        · rw [if_pos hde] at hbf
          injection hbf with h5
          injection h5 with h6 h7
          rw [← h4, ← h7, heq e]
          exact hde
        · rw [if_neg hde] at hbf
          injection hbf with h5
          injection h5 with h6 h7
          rw [← h4, ← h7]
          exact heq e
  · intro hnn fuel p1 c1 p2 c2 hdij hbid
    have hd := dijkstra_spec hdij
    unfold BidirectionalDijkstra.shortest_path at hbid
    cases hm : minCostPath g s e with
    | none =>
      rw [hm] at hbid
      dsimp only at hbid
      injection hbid with h3 h4
      cases p1 with
      | none =>
        have h5 := (hd.2 c1 rfl).1
        rw [h5, ← h4]
      | some q =>
        obtain ⟨hwq, _, _⟩ := hd.1 q c1 rfl
        exfalso
        obtain ⟨q2, hsq2, _⟩ := walk_to_simple q.length q (le_refl _) hwq
        obtain ⟨q3, hq3⟩ := minCostPath_isSome (simplePaths_complete hwf hsq2)
        rw [hm] at hq3
        cases hq3
    | some q =>
      rw [hm] at hbid
      dsimp only at hbid
      injection hbid with h3 h4
      have hsq := minCostPath_simple hm
      cases p1 with
      | none =>
        exfalso
        exact (hd.2 c1 rfl).2 ⟨q, hsq.1⟩
      | some p =>
        obtain ⟨hwp, hcp, hopt⟩ := hd.1 p c1 rfl
        have h5 : c1 ≤ (walkCost g q : WithTop Int) := hopt hnn q hsq.1
        obtain ⟨pd, hspd, hcle⟩ := walk_to_simple p.length p (le_refl _) hwp
        have h6 : walkCost g q ≤ walkCost g pd :=
          minCostPath_min hm pd (simplePaths_complete hwf hspd)
        have h7 : walkCost g q ≤ walkCost g p := le_trans h6 (hcle hnn)
        rw [hcp] at h5
        have h8 : walkCost g p ≤ walkCost g q := by exact_mod_cast h5
        have h9 : walkCost g p = walkCost g q := le_antisymm h8 h7
        rw [← h4, hcp]
        exact_mod_cast h9

/-- The SPFA state reached on the simple weighted graph from A = 1
(the loop terminates well within fuel 20). -/
def spfaStateSimple : SpfaState := (spfaLoop gSimple 20 (spfaInit 1)).getD (spfaInit 1)

/-- The directed agreement exercised concretely: on the simple weighted
graph (a `DiGraph`), SPFA's final labelling agrees with Bellman-Ford's
everywhere, and Dijkstra's (A, E) cost equals the bidirectional
model's, both being 7. -/
theorem directed_cost_agreement_example :
    ((∀ v, spfaStateSimple.d v = (bfState gSimple 1).d v) ∧
      (∀ p1 c1, Spfa.shortest_path gSimple 1 5 20 10 = some (.res p1 c1) →
        c1 = ((7 : Int) : WithTop Int))) ∧
    ((7 : Int) : WithTop Int) = ((7 : Int) : WithTop Int) := by
  have h := directed_cost_agreement gSimple 1 5 (by decide)
  constructor
  · exact h.1 20 10 10 spfaStateSimple (some [1, 2, 3, 4, 5]) ((7 : Int) : WithTop Int)
      (by rfl) (by rfl)
  · exact h.2 (by decide) 30 (some [1, 2, 3, 4, 5]) ((7 : Int) : WithTop Int)
      (some [1, 2, 3, 4, 5]) ((7 : Int) : WithTop Int) (by rfl) (by rfl)

/-- The adjacency view of an undirected `nx.Graph`: each stored edge
`{u, v}` is reachable in both directions through `graph.neighbors` and
`graph[u][v]`, so the symmetric closure lists both orientations (the
stored ones first). -/
def symClosure (g : Graph) : Graph :=
  ⟨g.nodes, g.edges ++ g.edges.map (fun e => (e.2.1, e.1, e.2.2))⟩

/-- The undirected single-edge graph A–B (A = 1, B = 2) as `nx.Graph`
stores it: one orientation, `(1, 2, 1)`. -/
def gUndirAB : Graph := ⟨[1, 2], [(1, 2, 1)]⟩

/-- C7: on the program's undirected inputs the claimed SPFA =
Bellman-Ford distance agreement fails.  `spfa.py` walks
`graph.neighbors`, which on an undirected graph is symmetric (the
`symClosure` view); `bellman_ford.py` sweeps `graph.edges(data=True)`,
which yields each undirected edge once, in its stored orientation
(`gUndirAB` itself).  Queried (B, A) = (2, 1) on the undirected edge
A–B: SPFA reports the path [2, 1] with distance 1, while Bellman-Ford
never relaxes 2 → 1, raises no negative-cycle error (its extra pass
finds nothing to relax), and reports the sentinel (None, inf) — the
reported costs differ on a non-negative-weight input with no negative
cycle and `A` reachable from `B`. -/
theorem claim_C7_spfa_bf_divergence :
    symClosure gUndirAB = ⟨[1, 2], [(1, 2, 1), (2, 1, 1)]⟩ ∧
    Nonneg gUndirAB ∧ Nonneg (symClosure gUndirAB) ∧
    bfRelaxable gUndirAB (bfState gUndirAB 2) = false ∧
    Spfa.shortest_path (symClosure gUndirAB) 2 1 20 10 =
      some (.res (some [2, 1]) ((1 : Int) : WithTop Int)) ∧
    BellmanFord.shortest_path gUndirAB 2 1 10 = some (.res none ⊤) ∧
    ((1 : Int) : WithTop Int) ≠ ⊤ := by
  exact ⟨rfl, by decide, by decide, rfl, rfl, rfl, by decide⟩
